import Mathlib

/-!
# Verification of the http-server request pipeline

A shallow embedding, over `List Nat` byte strings, of the pure parts of the
http-server repository: the HTTP method table (`crates/http/src/method.rs`),
byte-range parsing (`crates/server/src/handler/ranges.rs`), header-line
parsing (`crates/http/src/request/parse.rs`, `crates/http/src/response/parse.rs`),
URL percent-coding (`src/url/src/encode.rs`, `crates/url/src/decode.rs`),
Base64 (`src/base64/src/encode.rs`, `src/base64/src/decode.rs`),
the chunked transfer encoder (`crates/http/src/encoding/chunked.rs`),
the routing engine (`crates/server/src/handler/mod.rs`), the Basic-auth
wrapper (`crates/server/src/handler/auth.rs`), and request
serialization/parsing (`crates/http/src/request/mod.rs`,
`crates/http/src/request/parse.rs`).

Rust strings are embedded as their UTF-8 byte sequences (`List Nat`,
each element < 256); `char` operations that the code applies are ASCII
characters, so byte-level splitting coincides with Rust's `char`-level
splitting on these inputs.
-/

/-! ## Byte-string utilities (Rust `str`/`slice` primitives used by the code) -/

/-- ASCII byte constants used throughout, named for readability. -/
def byteLF : Nat := 10

def byteCR : Nat := 13

def byteSpace : Nat := 32

def byteColon : Nat := 58

def byteEq : Nat := 61

def byteDash : Nat := 45

def bytePercent : Nat := 37

def bytePlus : Nat := 43

def byteQuestion : Nat := 63

def byteAmp : Nat := 38

/-- UTF-8 bytes of an ASCII string literal (used only to write concrete
byte strings readably; all literals used are ASCII). -/
def strBytes (s : String) : List Nat := s.data.map Char.toNat

/-- Rust `char::is_whitespace` restricted to ASCII bytes: the inputs the
claims quantify over are ASCII, where Rust's Unicode white-space property
matches exactly these bytes. -/
def isWsByte (b : Nat) : Bool := b = 9 || b = 10 || b = 11 || b = 12 || b = 13 || b = 32

/-- Rust `str::trim` (both ends) on ASCII byte strings. -/
def trimBytes (l : List Nat) : List Nat :=
  ((l.dropWhile isWsByte).reverse.dropWhile isWsByte).reverse

/-- Rust `str::split(c)` for a one-byte `char` `c`: splits on every
occurrence, keeping empty pieces; always yields at least one piece. -/
def splitByte (c : Nat) : List Nat → List (List Nat)
  | [] => [[]]
  | b :: rest =>
    if b = c then [] :: splitByte c rest
    else
      match splitByte c rest with
      | [] => [[b]]
      | p :: ps => (b :: p) :: ps

theorem dropWhile_len_le (p : Nat → Bool) (l : List Nat) :
    (l.dropWhile p).length ≤ l.length := by
  induction l with
  | nil => simp
  | cons b rest ih =>
    simp only [List.dropWhile]
    split
    · exact le_trans ih (Nat.le_succ _)
    · simp

/-- Rust `str::split_whitespace`: the maximal non-empty runs of
non-whitespace bytes. -/
def splitWs : List Nat → List (List Nat)
  | [] => []
  | b :: rest =>
    if isWsByte b then splitWs rest
    else
      (b :: rest.takeWhile (fun x => !isWsByte x)) ::
        splitWs (rest.dropWhile (fun x => !isWsByte x))
termination_by l => l.length
decreasing_by
  all_goals simp_wf
  all_goals have := dropWhile_len_le (fun x => !isWsByte x) rest
  all_goals omega

/-- Rust `str::splitn(2, c)`: the piece before the first `c`, and the whole
remainder after it (`none` when `c` does not occur). -/
def splitn2 (c : Nat) (l : List Nat) : List Nat × Option (List Nat) :=
  match l with
  | [] => ([], none)
  | b :: rest =>
    if b = c then ([], some rest)
    else
      let (p, q) := splitn2 c rest
      (b :: p, q)

theorem splitByte_ne_nil (c : Nat) (l : List Nat) : splitByte c l ≠ [] := by
  cases l with
  | nil => simp [splitByte]
  | cons b rest =>
    simp only [splitByte]
    split
    · simp
    · cases h : splitByte c rest <;> simp

/-- A decimal digit byte. -/
def isDigitByte (b : Nat) : Bool := 48 ≤ b && b ≤ 57

/-- Value of a decimal digit string (no sign handling). -/
def digitsVal (l : List Nat) : Nat := l.foldl (fun acc b => acc * 10 + (b - 48)) 0

/-- Rust `u64::from_str`: optional leading `+`, then one or more decimal
digits, rejecting anything else and values that overflow a `u64`. -/
def parseU64 (l : List Nat) : Option Nat :=
  let body := match l with
    | b :: rest => if b = bytePlus then rest else l
    | [] => l
  if body = [] then none
  else if body.all isDigitByte then
    let v := digitsVal body
    if v < 2 ^ 64 then some v else none
  else none

def natToDecGo : Nat → Nat → List Nat
  | _, 0 => []
  | 0, _ + 1 => []
  | fuel + 1, n + 1 => natToDecGo fuel ((n + 1) / 10) ++ [48 + (n + 1) % 10]

/-- Decimal digits of `n`, as ASCII bytes (Rust `Display` for unsigned
integers); the fuel of the digit loop only bounds the digit count
(`n` itself is always enough). -/
def natToDec (n : Nat) : List Nat := if n = 0 then [48] else natToDecGo n n

/-! ## HttpMethod (`crates/http/src/method.rs`)

`HttpMethod` is an enum of nine methods; `FromStr` matches the exact
uppercase token and any other token `t` fails with the message
`Couldn't parse request method "<t>"`; `Display` prints the variant name. -/

inductive HttpMethod where
  | GET | POST | PUT | DELETE | HEAD | PATCH | CONNECT | OPTIONS | TRACE
deriving DecidableEq, Repr

/-- `Display for HttpMethod` (`write!(f, "{self:?}")`: the variant name). -/
def HttpMethod.fmt : HttpMethod → List Nat
  | .GET => strBytes "GET"
  | .POST => strBytes "POST"
  | .PUT => strBytes "PUT"
  | .DELETE => strBytes "DELETE"
  | .HEAD => strBytes "HEAD"
  | .PATCH => strBytes "PATCH"
  | .CONNECT => strBytes "CONNECT"
  | .OPTIONS => strBytes "OPTIONS"
  | .TRACE => strBytes "TRACE"

/-- `FromStr for HttpMethod`: match on the exact token, with the
`err!("Couldn't parse request method \"{t}\"")` fallback. -/
def HttpMethod.fromStr (t : List Nat) : Except (List Nat) HttpMethod :=
  if t = strBytes "GET" then .ok .GET
  else if t = strBytes "POST" then .ok .POST
  else if t = strBytes "PUT" then .ok .PUT
  else if t = strBytes "DELETE" then .ok .DELETE
  else if t = strBytes "HEAD" then .ok .HEAD
  else if t = strBytes "PATCH" then .ok .PATCH
  else if t = strBytes "CONNECT" then .ok .CONNECT
  else if t = strBytes "OPTIONS" then .ok .OPTIONS
  else if t = strBytes "TRACE" then .ok .TRACE
  else .error (strBytes "Couldn't parse request method \"" ++ t ++ [34])

/-! ## Byte ranges (`crates/server/src/handler/ranges.rs`)

`get_range_for(range, len)` splits the header value at `=`; the first piece
is the unit (must be `bytes`, else the error `Unknown unit`); a missing
second piece is the error `Missing range`; the second piece is split at
`-`, the part before must parse as a `u64` (`?` propagates a parse error),
and the part after is parsed as a `u64` with failures *and* absence both
replaced by `len` (`unwrap_or(len)`). Returns the pair `start..end`. -/

def get_range_for (range : List Nat) (len : Nat) : Except (List Nat) (Nat × Nat) :=
  let parts := splitByte byteEq range
  let unit := parts.headD []
  if unit ≠ strBytes "bytes" then .error (strBytes "Unknown unit")
  else
    match parts.get? 1 with
    | none => .error (strBytes "Missing range")
    | some r =>
      let rparts := splitByte byteDash r
      match parseU64 (rparts.headD []) with
      | none => .error (strBytes "invalid u64")
      | some start =>
        let endv := (parseU64 ((rparts.get? 1).getD [])).getD len
        .ok (start, endv)

/-! ## Split lemmas -/

theorem splitByte_not_mem {c : Nat} {l : List Nat} (h : c ∉ l) :
    splitByte c l = [l] := by
  induction l with
  | nil => rfl
  | cons b rest ih =>
    simp only [List.mem_cons, not_or] at h
    simp only [splitByte]
    rw [if_neg (by omega), ih h.2]

theorem splitByte_append {c : Nat} {l₁ : List Nat} (l₂ : List Nat) (h : c ∉ l₁) :
    splitByte c (l₁ ++ c :: l₂) = l₁ :: splitByte c l₂ := by
  induction l₁ with
  | nil => simp [splitByte]
  | cons b rest ih =>
    simp only [List.mem_cons, not_or] at h
    simp only [List.cons_append, splitByte]
    rw [if_neg (by omega)]
    have := ih h.2
    simp only [List.append_eq] at this ⊢
    rw [this]

/-- The `<unit>` piece of a `Range:` header value: what stands before the
first `=` (the whole value when there is no `=`). -/
def rangeUnit (r : List Nat) : List Nat := (splitByte byteEq r).headD []

/-- The `<start>` piece of a `Range:` header value: what stands between the
first `=` and the following `-` (empty when there is nothing there). -/
def rangeStart (r : List Nat) : List Nat :=
  (splitByte byteDash (((splitByte byteEq r).get? 1).getD [])).headD []

/-- C10: on a `bytes=<start>-<end>` value whose `<end>` does not parse as a
`u64`, `get_range_for` silently substitutes the file length for the end and
succeeds with `start..len`; and over all inputs it returns an error exactly
when the unit is not `bytes` or the `<start>` piece fails to parse as a
`u64` (the start piece being empty or absent is such a failure). -/
theorem get_range_for_lenient_end :
    (∀ (s e : List Nat) (len n : Nat),
      byteEq ∉ s → byteEq ∉ e → byteDash ∉ s → byteDash ∉ e →
      parseU64 s = some n → parseU64 e = none →
      get_range_for (strBytes "bytes=" ++ s ++ byteDash :: e) len = .ok (n, len)) ∧
    (∀ (r : List Nat) (len : Nat),
      (∃ msg, get_range_for r len = .error msg) ↔
        (rangeUnit r ≠ strBytes "bytes" ∨ parseU64 (rangeStart r) = none)) := by
  constructor
  · intro s e len n hs he hds hde hps hpe
    have hsplit : splitByte byteEq (strBytes "bytes=" ++ s ++ byteDash :: e)
        = strBytes "bytes" :: [s ++ byteDash :: e] := by
      have h1 : strBytes "bytes=" ++ s ++ byteDash :: e
          = strBytes "bytes" ++ byteEq :: (s ++ byteDash :: e) := by
        simp [strBytes, byteEq]
      rw [h1, splitByte_append _ (by decide), splitByte_not_mem]
      simp only [List.mem_append, List.mem_cons, not_or]
      exact ⟨hs, by decide, he⟩
    rw [get_range_for, hsplit]
    simp only [List.headD_cons, List.get?_cons_succ, List.get?_cons_zero,
      Option.getD_some, splitByte_append e hds, ite_not]
    simp only [if_true]
    rw [hps]
    rw [splitByte_not_mem hde]
    simp [hpe]
  · intro r len
    rw [get_range_for, rangeUnit, rangeStart]
    cases hsp : splitByte byteEq r with
    | nil => exact absurd hsp (splitByte_ne_nil _ _)
    | cons u ps =>
      simp only [List.headD_cons]
      by_cases hu : u = strBytes "bytes"
      · cases ps with
        | nil =>
          have hpe : parseU64 ((splitByte byteDash
              (((u :: ([] : List (List Nat))).get? 1).getD [])).headD []) = none := rfl
          simp only [List.get?_cons_succ, List.get?_nil, Option.getD_none] at hpe ⊢
          simp [hu, ite_not, parseU64, splitByte]
        | cons rr ps2 =>
          simp only [List.get?_cons_succ, List.get?_cons_zero, Option.getD_some]
          cases h2 : parseU64 ((splitByte byteDash rr).headD []) with
          | none => simp [hu, h2, ite_not]
          | some st => simp [hu, h2, ite_not]
      · rw [if_pos (by simpa using hu)]
        simp [hu]

/-- Witness for `get_range_for_lenient_end` at `bytes=40-xyz`, file length
1024 (both conjuncts at concrete inputs). -/
theorem get_range_for_lenient_end_w :
    get_range_for (strBytes "bytes=" ++ strBytes "40" ++ byteDash :: strBytes "xyz") 1024
        = .ok (40, 1024) ∧
    ((∃ msg, get_range_for (strBytes "chars=0-5") 10 = .error msg) ↔
      (rangeUnit (strBytes "chars=0-5") ≠ strBytes "bytes" ∨
        parseU64 (rangeStart (strBytes "chars=0-5")) = none)) :=
  ⟨get_range_for_lenient_end.1 (strBytes "40") (strBytes "xyz") 1024 40
      (by decide) (by decide) (by decide) (by decide) (by decide) (by decide),
    get_range_for_lenient_end.2 (strBytes "chars=0-5") 10⟩

/-- C9: parsing the printed form of every method yields the method back, and
every token that is none of the nine method names fails with the message
`Couldn't parse request method "<token>"` (byte 34 is the closing quote). -/
theorem method_parse_format_roundtrip :
    (∀ m : HttpMethod, HttpMethod.fromStr m.fmt = .ok m) ∧
    (∀ t : List Nat, (∀ m : HttpMethod, t ≠ m.fmt) →
      HttpMethod.fromStr t
        = .error (strBytes "Couldn't parse request method \"" ++ t ++ [34])) := by
  constructor
  · intro m; cases m <;> rfl
  · intro t h
    have h1 := h .GET
    have h2 := h .POST
    have h3 := h .PUT
    have h4 := h .DELETE
    have h5 := h .HEAD
    have h6 := h .PATCH
    have h7 := h .CONNECT
    have h8 := h .OPTIONS
    have h9 := h .TRACE
    simp only [HttpMethod.fmt] at h1 h2 h3 h4 h5 h6 h7 h8 h9
    simp [HttpMethod.fromStr, h1, h2, h3, h4, h5, h6, h7, h8, h9]

/-- Witness for `method_parse_format_roundtrip`: `GET` round-trips, and the
token `FOO` fails with the exact message. -/
theorem method_parse_format_roundtrip_w :
    HttpMethod.fromStr (HttpMethod.fmt .GET) = .ok .GET ∧
    HttpMethod.fromStr (strBytes "FOO")
      = .error (strBytes "Couldn't parse request method \"" ++ strBytes "FOO" ++ [34]) :=
  ⟨method_parse_format_roundtrip.1 .GET,
    method_parse_format_roundtrip.2 (strBytes "FOO") (by intro m; cases m <;> decide)⟩

/-! ## URL percent-coding

Encoder from `src/url/src/encode.rs`, decoder from `crates/url/src/decode.rs`.
The encoder short-circuits when every byte is unreserved, otherwise it maps
each byte to itself (unreserved) or `%XX` with uppercase hex digits; the
decoder short-circuits when the input has neither `%` nor `+`, otherwise it
maps `+` to space, `%XX` to the coded byte, any other byte to itself, and
finally validates the result as UTF-8 (`String::from_utf8`). -/

/-- The `is_ascii` closure of `encode`: `0-9 A-Z a-z - . _ ~`. -/
def isUnreserved (b : Nat) : Bool :=
  (48 ≤ b && b ≤ 57) || (65 ≤ b && b ≤ 90) || (97 ≤ b && b ≤ 122) ||
    b = 45 || b = 46 || b = 95 || b = 126

/-- `to_hex_digit`: `0..=9 → b'0'+d`, otherwise `b'A'-10+d`. -/
def toHexDigit (d : Nat) : Nat := if d ≤ 9 then 48 + d else 55 + d

/-- The byte-accumulating loop of `encode` (the `for byte in url.as_bytes()`
loop): each byte is kept or replaced by `%`, `to_hex_digit(byte >> 4)`,
`to_hex_digit(byte & 0b1111)`. -/
def encodeLoop : List Nat → List Nat
  | [] => []
  | b :: rest =>
    (if isUnreserved b then [b]
     else [bytePercent, toHexDigit (b >>> 4), toHexDigit (b &&& 15)]) ++ encodeLoop rest

/-- `url::encode`: the all-unreserved fast path returns the input unchanged,
else the loop above runs. -/
def Url.encode (url : List Nat) : List Nat :=
  if url.length ≤ (url.takeWhile isUnreserved).length then url else encodeLoop url

/-- `from_hex_digit`: `0-9`, `A-F`, `a-f`, else the error
`<b> is not a valid hex digit`. -/
def fromHexDigit (d : Nat) : Except (List Nat) Nat :=
  if 48 ≤ d ∧ d ≤ 57 then .ok (d - 48)
  else if 65 ≤ d ∧ d ≤ 70 then .ok (d - 65 + 10)
  else if 97 ≤ d ∧ d ≤ 102 then .ok (d - 97 + 10)
  else .error (natToDec d ++ strBytes " is not a valid hex digit")

/-- The `while let Some(b) = it.next()` loop of `decode`: `+` becomes a
space, `%` consumes two hex digits (either missing is the error
`Missing byte after '%'`, and a hex-digit error short-circuits), anything
else is copied. -/
def decodeLoop : List Nat → Except (List Nat) (List Nat)
  | [] => .ok []
  | b :: rest =>
    if b = bytePlus then (byteSpace :: ·) <$> decodeLoop rest
    else if b = bytePercent then
      match rest with
      | f :: s :: r =>
        match fromHexDigit f, fromHexDigit s with
        | .ok h1, .ok h2 => (((h1 <<< 4) ||| h2) :: ·) <$> decodeLoop r
        | .error e, _ => .error e
        | .ok _, .error e => .error e
      | _ => .error (strBytes "Missing byte after '%'")
    else (b :: ·) <$> decodeLoop rest
termination_by structural l => l

/-- One UTF-8 continuation byte (`0x80..=0xBF`). -/
def utf8Cont (c : Nat) : Bool := 128 ≤ c && c ≤ 191

/-- Given a leading byte `b ≥ 0x80` and the bytes after it, the remainder
after one well-formed multi-byte UTF-8 sequence, or `none` (surrogates and
overlong forms excluded, exactly as `String::from_utf8` does). -/
def utf8SeqTail (b : Nat) (rest : List Nat) : Option (List Nat) :=
  if 194 ≤ b && b ≤ 223 then
    match rest with
    | c1 :: r => if utf8Cont c1 then some r else none
    | [] => none
  else if 224 ≤ b && b ≤ 239 then
    match rest with
    | c1 :: c2 :: r =>
      if (if b = 224 then 160 ≤ c1 && c1 ≤ 191
          else if b = 237 then 128 ≤ c1 && c1 ≤ 159
          else utf8Cont c1) && utf8Cont c2 then some r else none
    | _ => none
  else if 240 ≤ b && b ≤ 244 then
    match rest with
    | c1 :: c2 :: c3 :: r =>
      if (if b = 240 then 144 ≤ c1 && c1 ≤ 191
          else if b = 244 then 128 ≤ c1 && c1 ≤ 143
          else utf8Cont c1) && utf8Cont c2 && utf8Cont c3 then some r else none
    | _ => none
  else none

/-- The scanning loop of UTF-8 validation; the fuel only bounds the number
of sequences (each consumes at least one byte, so `l.length` is enough). -/
def validUtf8Go : Nat → List Nat → Bool
  | _, [] => true
  | 0, _ :: _ => false
  | fuel + 1, b :: rest =>
    if b < 128 then validUtf8Go fuel rest
    else
      match utf8SeqTail b rest with
      | some r => validUtf8Go fuel r
      | none => false

/-- UTF-8 validity of a byte sequence, as checked by Rust's
`String::from_utf8`. -/
def validUtf8 (l : List Nat) : Bool := validUtf8Go l.length l

/-- `url::decode`: fast path when there is no `%` and no `+`, otherwise the
loop and then UTF-8 validation of the produced bytes. -/
def Url.decode (url : List Nat) : Except (List Nat) (List Nat) :=
  if bytePercent ∈ url ∨ bytePlus ∈ url then
    match decodeLoop url with
    | .error e => .error e
    | .ok bs => if validUtf8 bs then .ok bs else .error (strBytes "invalid utf-8")
  else .ok url

/-- The output alphabet claimed for the encoder: unreserved bytes plus
`%XX` triples with uppercase hex digits. -/
def pctEncodedWf : List Nat → Bool
  | [] => true
  | b :: rest =>
    if isUnreserved b then pctEncodedWf rest
    else if b = bytePercent then
      match rest with
      | f :: s :: r =>
        ((48 ≤ f && f ≤ 57) || (65 ≤ f && f ≤ 70)) &&
        ((48 ≤ s && s ≤ 57) || (65 ≤ s && s ≤ 70)) && pctEncodedWf r
      | _ => false
    else false
termination_by structural l => l


set_option maxRecDepth 10000 in
theorem byte_hex_facts : ∀ b < 256, ((b >>> 4) <<< 4 ||| (b &&& 15)) = b ∧
    b >>> 4 < 16 ∧ (b &&& 15) < 16 := by decide

theorem fromHex_toHex : ∀ d < 16, fromHexDigit (toHexDigit d) = .ok d := by
  intro d hd
  interval_cases d <;> rfl

theorem toHex_upper : ∀ d < 16,
    ((48 ≤ toHexDigit d && toHexDigit d ≤ 57) ||
      (65 ≤ toHexDigit d && toHexDigit d ≤ 70)) = true := by decide

theorem unreserved_facts {b : Nat} (h : isUnreserved b = true) :
    b < 128 ∧ b ≠ bytePlus ∧ b ≠ bytePercent := by
  simp only [isUnreserved, Bool.or_eq_true, Bool.and_eq_true, decide_eq_true_eq] at h
  simp only [bytePlus, bytePercent]
  omega

theorem takeWhile_all {p : Nat → Bool} {l : List Nat} (h : ∀ b ∈ l, p b = true) :
    l.takeWhile p = l := by
  induction l with
  | nil => rfl
  | cons b rest ih =>
    simp only [List.takeWhile, h b (by simp)]
    rw [ih fun x hx => h x (by simp [hx])]

theorem takeWhile_lt_of_not_all {p : Nat → Bool} {l : List Nat}
    (h : ¬ ∀ b ∈ l, p b = true) : (l.takeWhile p).length < l.length := by
  induction l with
  | nil => exact absurd (by simp) h
  | cons b rest ih =>
    by_cases hb : p b = true
    · simp only [List.takeWhile, hb, List.length_cons]
      have : ¬ ∀ x ∈ rest, p x = true := by
        intro hall; exact h fun x hx => by
          rcases List.mem_cons.mp hx with h1 | h2
          · exact h1 ▸ hb
          · exact hall x h2
      exact Nat.succ_lt_succ (ih this)
    · simp only [List.takeWhile, hb]
      simp

theorem decodeLoop_encodeLoop {l : List Nat} (h : ∀ b ∈ l, b < 256) :
    decodeLoop (encodeLoop l) = .ok l := by
  induction l with
  | nil => rfl
  | cons b rest ih =>
    have hb : b < 256 := h b (by simp)
    have ih2 := ih fun x hx => h x (by simp [hx])
    by_cases hu : isUnreserved b = true
    · obtain ⟨_, hp, hpc⟩ := unreserved_facts hu
      simp only [encodeLoop, hu, if_true, List.cons_append, List.nil_append]
      rw [decodeLoop.eq_def]
      simp only [if_neg hp, if_neg hpc]
      rw [ih2]
      rfl
    · obtain ⟨hrec, hsh, hand⟩ := byte_hex_facts b hb
      have hform : encodeLoop (b :: rest)
          = bytePercent :: toHexDigit (b >>> 4) :: toHexDigit (b &&& 15) :: encodeLoop rest := by
        simp [encodeLoop, hu]
      rw [hform, decodeLoop.eq_def]
      simp only [if_neg (show ¬ (bytePercent = bytePlus) by decide), if_pos rfl, if_true]
      rw [fromHex_toHex _ hsh, fromHex_toHex _ hand]
      simp only
      rw [ih2, hrec]
      rfl

theorem validUtf8Go_ascii : ∀ (fuel : Nat) (l : List Nat),
    (∀ b ∈ l, b < 128) → l.length ≤ fuel → validUtf8Go fuel l = true := by
  intro fuel
  induction fuel with
  | zero =>
    intro l h hlen
    have : l = [] := List.length_eq_zero.mp (Nat.le_zero.mp hlen)
    subst this
    rfl
  | succ f ih =>
    intro l h hlen
    cases l with
    | nil => rfl
    | cons b rest =>
      have : validUtf8Go (f + 1) (b :: rest)
          = if b < 128 then validUtf8Go f rest
            else match utf8SeqTail b rest with
              | some r => validUtf8Go f r
              | none => false := rfl
      rw [this, if_pos (h b (by simp))]
      exact ih rest (fun x hx => h x (by simp [hx])) (by simpa using Nat.lt_succ_iff.mp hlen)

theorem ascii_validUtf8 {l : List Nat} (h : ∀ b ∈ l, b < 128) :
    validUtf8 l = true :=
  validUtf8Go_ascii l.length l h le_rfl

theorem encodeLoop_has_percent {l : List Nat} {b : Nat} (hb : b ∈ l)
    (hbad : isUnreserved b = false) : bytePercent ∈ encodeLoop l := by
  induction l with
  | nil => simp at hb
  | cons x rest ih =>
    simp only [encodeLoop, List.mem_append]
    rcases List.mem_cons.mp hb with h1 | h2
    · subst h1
      rw [hbad]
      simp
    · exact Or.inr (ih h2)

theorem allUnreserved_wf {l : List Nat} (h : ∀ b ∈ l, isUnreserved b = true) :
    pctEncodedWf l = true := by
  induction l with
  | nil => rfl
  | cons b rest ih =>
    rw [pctEncodedWf.eq_def]
    simp only [h b (by simp), if_true]
    exact ih fun x hx => h x (by simp [hx])

theorem encodeLoop_wf {l : List Nat} (h : ∀ b ∈ l, b < 256) :
    pctEncodedWf (encodeLoop l) = true := by
  induction l with
  | nil => rfl
  | cons b rest ih =>
    have hb : b < 256 := h b (by simp)
    have ih2 := ih fun x hx => h x (by simp [hx])
    obtain ⟨_, hsh, hand⟩ := byte_hex_facts b hb
    by_cases hu : isUnreserved b = true
    · simp only [encodeLoop, hu, if_true, List.cons_append, List.nil_append]
      rw [pctEncodedWf.eq_def]
      simp only [hu, if_true]
      exact ih2
    · have hform : encodeLoop (b :: rest)
          = bytePercent :: toHexDigit (b >>> 4) :: toHexDigit (b &&& 15) :: encodeLoop rest := by
        simp [encodeLoop, hu]
      rw [hform, pctEncodedWf.eq_def]
      simp only [if_neg (show ¬ (isUnreserved bytePercent = true) by decide), if_pos rfl, if_true]
      rw [toHex_upper _ hsh, toHex_upper _ hand, ih2]
      rfl

/-- C8: (i) for every byte string over the unreserved-plus-`%` alphabet,
decoding the encoding gives the input back; (ii) for every byte string, the
encoder's output consists only of unreserved bytes and `%XX` triples with
uppercase hex digits; (iii) the decoder maps `+` to a space. -/
theorem url_decode_encode_roundtrip :
    (∀ s : List Nat, (∀ b ∈ s, isUnreserved b = true ∨ b = bytePercent) →
      Url.decode (Url.encode s) = .ok s) ∧
    (∀ s : List Nat, (∀ b ∈ s, b < 256) → pctEncodedWf (Url.encode s) = true) ∧
    Url.decode [bytePlus] = .ok [byteSpace] := by
  refine ⟨?_, ?_, rfl⟩
  · intro s halpha
    have h128 : ∀ b ∈ s, b < 128 := by
      intro b hb
      rcases halpha b hb with h | h
      · exact (unreserved_facts h).1
      · subst h; decide
    by_cases hall : ∀ b ∈ s, isUnreserved b = true
    · rw [Url.encode, if_pos (by rw [takeWhile_all hall])]
      rw [Url.decode, if_neg]
      rintro (hmem | hmem)
      · exact absurd (hall _ hmem) (by decide)
      · exact absurd (hall _ hmem) (by decide)
    · rw [Url.encode, if_neg (by have := takeWhile_lt_of_not_all hall; omega)]
      have ⟨b, hb, hbad⟩ : ∃ b ∈ s, isUnreserved b = false := by
        push_neg at hall
        obtain ⟨b, hb, hbad⟩ := hall
        exact ⟨b, hb, by simpa using hbad⟩
      rw [Url.decode, if_pos (Or.inl (encodeLoop_has_percent hb hbad))]
      rw [decodeLoop_encodeLoop fun x hx => lt_trans (h128 x hx) (by omega)]
      simp only [ascii_validUtf8 h128, if_true]
  · intro s h256
    by_cases hall : ∀ b ∈ s, isUnreserved b = true
    · rw [Url.encode, if_pos (by rw [takeWhile_all hall])]
      exact allUnreserved_wf hall
    · rw [Url.encode, if_neg (by have := takeWhile_lt_of_not_all hall; omega)]
      exact encodeLoop_wf h256

/-- Witness for `url_decode_encode_roundtrip` on the concrete strings
`a-b%7E` (first conjunct) and `a b/` (second conjunct). -/
theorem url_decode_encode_roundtrip_w :
    Url.decode (Url.encode (strBytes "a-b%7E")) = .ok (strBytes "a-b%7E") ∧
    pctEncodedWf (Url.encode (strBytes "a b/")) = true :=
  ⟨url_decode_encode_roundtrip.1 (strBytes "a-b%7E") (by decide),
    url_decode_encode_roundtrip.2.1 (strBytes "a b/") (by decide)⟩

/-! ## Base64 (`src/base64/src/encode.rs`, `src/base64/src/decode.rs`)

The encoder walks the input in 3-byte groups, each group producing four
alphabet characters via `TABLE[(e & 0b111111)]`; a 1-byte remainder
produces two characters and `==`, a 2-byte remainder three characters and
`=`. The decoder reads 6-bit values with `next()`, which maps `A-Z a-z 0-9
+ /` to 0..63 and *both* `=` and end-of-input to 0, and errors on anything
else; the main loop reads values in pairs and breaks out of everything when
the second value of a pair is 0, pushing `(n >> 4) & 0xFF` after the first
pair and `(n >> 8) & 0xFF` plus `n & 0xFF` after the second. -/

/-- `TABLE`: `A-Z a-z 0-9 + /` indexed by 0..63. -/
def b64Table (i : Nat) : Nat :=
  if i < 26 then 65 + i
  else if i < 52 then 97 + (i - 26)
  else if i < 62 then 48 + (i - 52)
  else if i = 62 then 43
  else 47

/-- The `push!` macro of `encode`: table lookup of the low six bits. -/
def b64push (e : Nat) : Nat := b64Table (e &&& 63)

/-- `rb64::encode` (the `while i < len` loop over full 3-byte groups, then
the `remaining` 1- or 2-byte tail with `=` padding). -/
def B64.encode : List Nat → List Nat
  | b0 :: b1 :: b2 :: rest =>
    b64push (b0 >>> 2) :: b64push (b0 <<< 4 ||| b1 >>> 4) ::
      b64push (b1 <<< 2 ||| b2 >>> 6) :: b64push b2 :: B64.encode rest
  | [b0, b1] =>
    [b64push (b0 >>> 2), b64push (b0 <<< 4 ||| b1 >>> 4), b64push (b1 <<< 2), byteEq]
  | [b0] => [b64push (b0 >>> 2), b64push (b0 <<< 4), byteEq, byteEq]
  | [] => []

/-- The value branch of `next()` for one present character (the
missing-character case is handled at the call sites, where `None` becomes
`'='`, i.e. 0). -/
def b64val (c : Nat) : Except (List Nat) Nat :=
  if 65 ≤ c ∧ c ≤ 90 then .ok (c - 65)
  else if 97 ≤ c ∧ c ≤ 122 then .ok (c - 71)
  else if 48 ≤ c ∧ c ≤ 57 then .ok (c + 4)
  else if c = 43 then .ok 62
  else if c = 47 then .ok 63
  else if c = 61 then .ok 0
  else .error (strBytes "Unknown character to decode: " ++ [c])

/-- The `'main: loop` of `rb64::decode`, unfolded over the shape of the
remaining characters: each outer iteration reads two pairs of values
(`n = n << 6 | c` each), breaks out after a pair whose second value is 0,
and pushes `(n >> 4) & 0xFF`, `(n >> 8) & 0xFF`, `n & 0xFF` as it goes. -/
def B64.decodeGo : List Nat → Except (List Nat) (List Nat)
  | [] => .ok []
  | [c1] =>
    match b64val c1 with
    | .error e => .error e
    | .ok _ => .ok []
  | c1 :: c2 :: rest =>
    match b64val c1, b64val c2 with
    | .error e, _ => .error e
    | .ok _, .error e => .error e
    | .ok v1, .ok v2 =>
      if v2 = 0 then .ok []
      else
        let n1 := v1 <<< 6 ||| v2
        let byte1 := (n1 >>> 4) &&& 255
        match rest with
        | [] => .ok [byte1]
        | [c3] =>
          match b64val c3 with
          | .error e => .error e
          | .ok _ => .ok [byte1]
        | c3 :: c4 :: rest2 =>
          match b64val c3, b64val c4 with
          | .error e, _ => .error e
          | .ok _, .error e => .error e
          | .ok v3, .ok v4 =>
            if v4 = 0 then .ok [byte1]
            else
              let n2 := ((n1 <<< 6 ||| v3) <<< 6) ||| v4
              let byte2 := (n2 >>> 8) &&& 255
              let byte3 := n2 &&& 255
              (fun bs => byte1 :: byte2 :: byte3 :: bs) <$> B64.decodeGo rest2
termination_by structural l => l

/-- `rb64::decode`. -/
def B64.decode (text : List Nat) : Except (List Nat) (List Nat) := B64.decodeGo text

/-- C4 evidence: the decoder loses the final byte of the encoding of `ab`
(`YWI=`): the value of `=` (0) is conflated with the break sentinel, so the
byte `(n >> 8) & 0xFF` of the last quad is never pushed. The claim requires
`decode (encode b) = b` for every `b`; at `b = "ab"` the code returns `"a"`. -/
theorem b64_decode_encode_drops_byte :
    B64.encode (strBytes "ab") = strBytes "YWI=" ∧
    B64.decode (B64.encode (strBytes "ab")) = .ok (strBytes "a") ∧
    strBytes "a" ≠ strBytes "ab" := ⟨rfl, rfl, by decide⟩

/-! ## Chunked transfer encoder (`crates/http/src/encoding/chunked.rs`)

`Chunked<R, CHUNK_SIZE>` keeps the upstream reader, the current framed
chunk, and a read offset into it. `next_chunk` clears the chunk, reads up
to `CHUNK_SIZE` bytes from upstream (the claim premises an upstream that
fills each request up to `CHUNK_SIZE`, embedded here as a byte list from
which `min CHUNK_SIZE remaining` bytes are taken), and on a non-empty read
frames them as `format!("{n:X}")` + CRLF + payload + CRLF. `read` refills
when the offset has passed the chunk, returns 0 when upstream is done, and
otherwise serves `min (chunk.len - offset) buf.len` bytes of the chunk. -/

/-- An uppercase hex digit byte (`{n:X}` formatting). -/
def hexDigitUpper (d : Nat) : Nat := if d < 10 then 48 + d else 55 + d

def natToHexAux : Nat → List Nat
  | 0 => []
  | n + 1 => natToHexAux ((n + 1) / 16) ++ [hexDigitUpper ((n + 1) % 16)]
decreasing_by exact Nat.div_lt_self (Nat.succ_pos n) (by omega)

/-- `format!("{n:X}")`: uppercase hex, no leading zeros, `0` for zero. -/
def natToHexUpper (n : Nat) : List Nat := if n = 0 then [48] else natToHexAux n

def crlf : List Nat := [byteCR, byteLF]

/-- The state of a `Chunked` encoder: the bytes the upstream reader has yet
to deliver, the current framed chunk, and the offset into it. -/
structure ChunkedState where
  input : List Nat
  chunk : List Nat
  offset : Nat
deriving Repr, DecidableEq

/-- `Chunked::next_chunk`: clear the buffer, pull up to `c` bytes, frame
them; `false` exactly on an empty upstream read. -/
def next_chunk (c : Nat) (st : ChunkedState) : Bool × ChunkedState :=
  let n := min c st.input.length
  if n = 0 then (false, { st with chunk := [], offset := 0 })
  else
    (true, { input := st.input.drop n,
             chunk := natToHexUpper n ++ crlf ++ st.input.take n ++ crlf,
             offset := 0 })

/-- `Chunked::read` with a downstream buffer of `bufLen` bytes: returns the
number of bytes served, those bytes, and the next state. -/
def chunked_read (c bufLen : Nat) (st : ChunkedState) : Nat × List Nat × ChunkedState :=
  if st.chunk.length ≤ st.offset then
    match next_chunk c st with
    | (false, st1) => (0, [], st1)
    | (true, st1) =>
      let n := min (st1.chunk.length - st1.offset) bufLen
      (n, (st1.chunk.drop st1.offset).take n, { st1 with offset := st1.offset + n })
  else
    let n := min (st.chunk.length - st.offset) bufLen
    (n, (st.chunk.drop st.offset).take n, { st with offset := st.offset + n })

/-- Reading the encoder to exhaustion (`read_to_end`): collect the bytes of
successive `read` calls until one returns 0. The fuel only bounds the
number of calls. -/
def chunkedRun (c bufLen : Nat) : Nat → ChunkedState → List Nat × ChunkedState
  | 0, st => ([], st)
  | fuel + 1, st =>
    let r := chunked_read c bufLen st
    if r.1 = 0 then ([], r.2.2)
    else
      let r2 := chunkedRun c bufLen fuel r.2.2
      (r.2.1 ++ r2.1, r2.2)

/-- The output the spec prescribes: the input split into `c`-sized pieces,
each framed as `<uppercase hex piece length>\r\n<piece>\r\n`. -/
def chunkedEncode (c : Nat) (l : List Nat) : List Nat :=
  if l.isEmpty then []
  else if c = 0 then []
  else
    (natToHexUpper (l.take c).length ++ crlf ++ l.take c ++ crlf) ++ chunkedEncode c (l.drop c)
termination_by l.length
decreasing_by
  simp_wf
  rename_i h1 h2
  have : l.length ≠ 0 := by
    cases l
    · simp at h1
    · simp
  omega

/-- An hex digit byte as used by the chunk-size decoder. -/
def isHexDigitByte (b : Nat) : Bool :=
  (48 ≤ b && b ≤ 57) || (65 ≤ b && b ≤ 70) || (97 ≤ b && b ≤ 102)

def hexDigitVal (d : Nat) : Nat :=
  if d ≤ 57 then d - 48 else if d ≤ 70 then d - 55 else d - 87

/-- Value of a hex digit string. -/
def hexVal (l : List Nat) : Nat := l.foldl (fun acc b => acc * 16 + hexDigitVal b) 0

/-- Modelled from the spec: the repository has no chunked *decoder* (the
spec describes it as symmetric and only needed for chunked request bodies),
so this follows §4.2 verbatim: read a hex length line, then that many
bytes, then the trailing CRLF; terminate on a zero-length chunk — or, per
the spec's allowance on terminator strategy, on end of input. The fuel only
bounds the number of chunks. -/
def chunkedDecodeGo : Nat → List Nat → Option (List Nat)
  | _, [] => some []
  | 0, _ :: _ => none
  | fuel + 1, l =>
    let hexpart := l.takeWhile isHexDigitByte
    if hexpart = [] then none
    else
      match l.drop hexpart.length with
      | 13 :: 10 :: body =>
        let n := hexVal hexpart
        if n = 0 then some []
        else if body.length < n then none
        else
          match body.drop n with
          | 13 :: 10 :: tail => (chunkedDecodeGo fuel tail).map (body.take n ++ ·)
          | _ => none
      | _ => none

/-- Modelled from the spec: chunked decoding of a whole byte string. -/
def chunkedDecode (l : List Nat) : Option (List Nat) := chunkedDecodeGo l.length l

theorem hexDigitVal_hexDigitUpper : ∀ d < 16, hexDigitVal (hexDigitUpper d) = d := by
  decide

theorem isHexDigitByte_hexDigitUpper : ∀ d < 16, isHexDigitByte (hexDigitUpper d) = true := by
  decide

theorem natToHexAux_hexVal (n : Nat) : hexVal (natToHexAux n) = n := by
  induction n using Nat.strong_induction_on with
  | _ n ih =>
    match n with
    | 0 => simp [natToHexAux, hexVal]
    | m + 1 =>
      rw [natToHexAux]
      have hlt : (m + 1) / 16 < m + 1 := Nat.div_lt_self (Nat.succ_pos m) (by omega)
      have := ih ((m + 1) / 16) hlt
      simp only [hexVal] at this ⊢
      rw [List.foldl_append, this]
      simp only [List.foldl_cons, List.foldl_nil]
      rw [hexDigitVal_hexDigitUpper _ (Nat.mod_lt _ (by omega))]
      omega

theorem natToHexUpper_hexVal (n : Nat) : hexVal (natToHexUpper n) = n := by
  by_cases h : n = 0
  · subst h; rfl
  · rw [natToHexUpper, if_neg h]; exact natToHexAux_hexVal n

theorem natToHexAux_hex (n : Nat) : ∀ b ∈ natToHexAux n, isHexDigitByte b = true := by
  induction n using Nat.strong_induction_on with
  | _ n ih =>
    match n with
    | 0 => simp [natToHexAux]
    | m + 1 =>
      rw [natToHexAux]
      intro b hb
      rcases List.mem_append.mp hb with h1 | h2
      · exact ih ((m + 1) / 16) (Nat.div_lt_self (Nat.succ_pos m) (by omega)) b h1
      · rw [List.mem_singleton.mp h2]
        exact isHexDigitByte_hexDigitUpper _ (Nat.mod_lt _ (by omega))

theorem natToHexUpper_hex (n : Nat) : ∀ b ∈ natToHexUpper n, isHexDigitByte b = true := by
  by_cases h : n = 0
  · subst h; decide
  · rw [natToHexUpper, if_neg h]; exact natToHexAux_hex n

theorem natToHexAux_len (n : Nat) : (natToHexAux n).length ≤ n := by
  induction n using Nat.strong_induction_on with
  | _ n ih =>
    match n with
    | 0 => simp [natToHexAux]
    | m + 1 =>
      rw [natToHexAux]
      have hlt : (m + 1) / 16 < m + 1 := Nat.div_lt_self (Nat.succ_pos m) (by omega)
      have := ih ((m + 1) / 16) hlt
      simp only [List.length_append, List.length_cons, List.length_nil]
      omega

theorem natToHexUpper_len {n : Nat} (h : 1 ≤ n) : (natToHexUpper n).length ≤ n := by
  rw [natToHexUpper, if_neg (by omega)]
  exact natToHexAux_len n

theorem natToHexUpper_ne_nil (n : Nat) : natToHexUpper n ≠ [] := by
  rw [natToHexUpper]
  split
  · simp
  · rename_i h
    match n, h with
    | m + 1, _ =>
      rw [natToHexAux]
      simp

theorem takeWhile_append_stop {p : Nat → Bool} {l1 : List Nat} {x : Nat} (l2 : List Nat)
    (h1 : ∀ b ∈ l1, p b = true) (hx : p x = false) :
    (l1 ++ x :: l2).takeWhile p = l1 := by
  induction l1 with
  | nil => simp [List.takeWhile, hx]
  | cons b rest ih =>
    simp only [List.cons_append, List.takeWhile, h1 b (by simp), List.append_eq]
    rw [ih fun y hy => h1 y (by simp [hy])]

theorem take_min (c : Nat) (l : List Nat) : l.take (min c l.length) = l.take c := by
  rcases Nat.le_total c l.length with h | h
  · rw [Nat.min_eq_left h]
  · rw [Nat.min_eq_right h, List.take_length, List.take_of_length_le h]

theorem drop_min (c : Nat) (l : List Nat) : l.drop (min c l.length) = l.drop c := by
  rcases Nat.le_total c l.length with h | h
  · rw [Nat.min_eq_left h]
  · rw [Nat.min_eq_right h, List.drop_length, List.drop_eq_nil_of_le h]

theorem chunked_read_after_end (c bufLen : Nat) (st : ChunkedState)
    (h1 : st.input = []) (h2 : st.chunk.length ≤ st.offset) :
    (chunked_read c bufLen st).1 = 0 ∧
    (chunked_read c bufLen st).2.2.input = [] ∧
    (chunked_read c bufLen st).2.2.chunk.length ≤ (chunked_read c bufLen st).2.2.offset := by
  have hnext : next_chunk c st = (false, ⟨st.input, [], 0⟩) := by
    rw [next_chunk]
    simp [h1]
  rw [chunked_read, if_pos h2, hnext]
  exact ⟨rfl, h1, by simp⟩

theorem chunkedRun_spec (c bufLen : Nat) (hc : 1 ≤ c) (hb : 2 * c + 4 ≤ bufLen) :
    ∀ (fuel : Nat) (st : ChunkedState), st.chunk.length ≤ st.offset →
      st.input.length < fuel →
      (chunkedRun c bufLen fuel st).1 = chunkedEncode c st.input ∧
      (chunkedRun c bufLen fuel st).2.input = [] ∧
      (chunkedRun c bufLen fuel st).2.chunk.length ≤ (chunkedRun c bufLen fuel st).2.offset := by
  intro fuel
  induction fuel with
  | zero => intro st _ h; omega
  | succ f ih =>
    intro st hexh hlen
    cases hin : st.input with
    | nil =>
      have h0 := chunked_read_after_end c bufLen st hin hexh
      rw [chunkedRun]
      simp only [if_pos h0.1]
      refine ⟨?_, h0.2.1, h0.2.2⟩
      rw [chunkedEncode]
      simp
    | cons b rest =>
      have hpos : 1 ≤ st.input.length := by rw [hin]; simp
      set n0 := min c st.input.length with hn0
      have hn0pos : 1 ≤ n0 := by
        rw [hn0]
        rcases Nat.le_total c st.input.length with h | h
        · rw [Nat.min_eq_left h]; omega
        · rw [Nat.min_eq_right h]; omega
      have hn0c : n0 ≤ c := Nat.min_le_left _ _
      set frame := natToHexUpper n0 ++ crlf ++ st.input.take n0 ++ crlf with hframe
      have hframe_len : frame.length ≤ bufLen := by
        rw [hframe]
        simp only [List.length_append, crlf, List.length_cons, List.length_nil,
          List.length_take]
        have h1 := natToHexUpper_len hn0pos
        have h2 : min n0 st.input.length ≤ c := le_trans (Nat.min_le_left _ _) hn0c
        omega
      have hframe_pos : 1 ≤ frame.length := by
        rw [hframe]
        simp only [List.length_append, crlf, List.length_cons, List.length_nil]
        omega
      have hnext : next_chunk c st =
          (true, ⟨st.input.drop n0, frame, 0⟩) := by
        rw [next_chunk]
        simp only [← hn0, ← hframe]
        rw [if_neg (by omega)]
      have hread : chunked_read c bufLen st =
          (frame.length, frame, ⟨st.input.drop n0, frame, frame.length⟩) := by
        rw [chunked_read, if_pos hexh, hnext]
        simp only [List.drop_zero, Nat.sub_zero, Nat.min_eq_left hframe_len,
          List.take_length, Nat.zero_add]
      rw [chunkedRun, hread]
      simp only [if_neg (show ¬ (frame.length = 0) by omega)]
      have hdroplen : (st.input.drop n0).length < f := by
        rw [List.length_drop]
        omega
      have hih := ih ⟨st.input.drop n0, frame, frame.length⟩ (le_refl _) hdroplen
      simp only at hih
      rcases hrun : chunkedRun c bufLen f ⟨st.input.drop n0, frame, frame.length⟩
        with ⟨out2, st2⟩
      rw [hrun] at hih
      simp only at hih
      simp only [hrun]
      refine ⟨?_, hih.2.1, hih.2.2⟩
      rw [hih.1]
      conv_rhs => rw [chunkedEncode]
      rw [if_neg (by simp [hin]), if_neg (by omega)]
      rw [hframe, List.length_take, take_min, drop_min]
      simp [hin, List.append_assoc, take_min, drop_min, hn0]

theorem chunkedDecodeGo_succ_cons (f h : Nat) (ls : List Nat) :
    chunkedDecodeGo (f + 1) (h :: ls) =
      (let hexpart := (h :: ls).takeWhile isHexDigitByte
       if hexpart = [] then none
       else
        match (h :: ls).drop hexpart.length with
        | 13 :: 10 :: body =>
          let n := hexVal hexpart
          if n = 0 then some []
          else if body.length < n then none
          else
            match body.drop n with
            | 13 :: 10 :: tail => (chunkedDecodeGo f tail).map (body.take n ++ ·)
            | _ => none
        | _ => none) := rfl

theorem chunkedDecodeGo_nil (f : Nat) : chunkedDecodeGo f [] = some [] := by
  cases f <;> rfl

theorem chunkedEncode_len_ge (c : Nat) (hc : 1 ≤ c) (input : List Nat) :
    input.length ≤ (chunkedEncode c input).length := by
  suffices h : ∀ n (input : List Nat), input.length ≤ n →
      input.length ≤ (chunkedEncode c input).length from h input.length input le_rfl
  intro n
  induction n with
  | zero =>
    intro input h
    rw [List.length_eq_zero.mp (Nat.le_zero.mp h), chunkedEncode]
    simp
  | succ m ih =>
    intro input h
    cases input with
    | nil => rw [chunkedEncode]; simp
    | cons b rest =>
      rw [chunkedEncode, if_neg (by simp), if_neg (by omega)]
      have h1 : 1 ≤ (natToHexUpper ((b :: rest).take c).length).length :=
        List.length_pos.mpr (natToHexUpper_ne_nil _)
      have h2 := ih ((b :: rest).drop c) (by simp at h ⊢; omega)
      simp only [List.length_append, crlf, List.length_cons, List.length_nil,
        List.length_take, List.length_drop] at h1 h2 ⊢
      omega

theorem chunkedEncode_len_gt (c : Nat) (hc : 1 ≤ c) (b : Nat) (rest : List Nat) :
    (b :: rest).length < (chunkedEncode c (b :: rest)).length := by
  rw [chunkedEncode, if_neg (by simp), if_neg (by omega)]
  have h1 : 1 ≤ (natToHexUpper ((b :: rest).take c).length).length :=
    List.length_pos.mpr (natToHexUpper_ne_nil _)
  have h2 := chunkedEncode_len_ge c hc ((b :: rest).drop c)
  simp only [List.length_append, crlf, List.length_cons, List.length_nil,
    List.length_take, List.length_drop] at h1 h2 ⊢
  omega

theorem chunkedDecodeGo_encode (c : Nat) (hc : 1 ≤ c) :
    ∀ (fuel : Nat) (input : List Nat), input.length < fuel →
      chunkedDecodeGo fuel (chunkedEncode c input) = some input := by
  intro fuel
  induction fuel with
  | zero => intro input h; omega
  | succ f ih =>
    intro input hlen
    cases input with
    | nil =>
      rw [chunkedEncode]
      simp only [List.isEmpty_nil, if_true]
      exact chunkedDecodeGo_nil (f + 1)
    | cons b rest =>
      set piece := (b :: rest).take c with hpiece
      set n0 := piece.length with hn0
      have hn0pos : 1 ≤ n0 := by
        rw [hn0, hpiece, List.length_take]
        simp only [List.length_cons]
        omega
      set tailEnc := chunkedEncode c ((b :: rest).drop c) with htail
      have henc : chunkedEncode c (b :: rest)
          = natToHexUpper n0 ++ (13 :: 10 :: (piece ++ 13 :: 10 :: tailEnc)) := by
        conv_lhs => rw [chunkedEncode]
        rw [if_neg (by simp), if_neg (by omega)]
        rw [hn0, hpiece, List.length_take]
        simp [crlf, byteCR, byteLF, List.append_assoc]
      rcases hhex : natToHexUpper n0 with _ | ⟨hh, ht⟩
      · exact absurd hhex (natToHexUpper_ne_nil n0)
      have hcons : chunkedEncode c (b :: rest)
          = hh :: (ht ++ (13 :: 10 :: (piece ++ 13 :: 10 :: tailEnc))) := by
        rw [henc, hhex]
        simp
      rw [hcons, chunkedDecodeGo_succ_cons]
      simp only
      have hback : hh :: (ht ++ (13 :: 10 :: (piece ++ 13 :: 10 :: tailEnc)))
          = natToHexUpper n0 ++ (13 :: 10 :: (piece ++ 13 :: 10 :: tailEnc)) := by
        rw [hhex]; simp
      rw [hback]
      have htw : (natToHexUpper n0 ++ (13 :: 10 :: (piece ++ 13 :: 10 :: tailEnc))).takeWhile
          isHexDigitByte = natToHexUpper n0 :=
        takeWhile_append_stop _ (natToHexUpper_hex n0) (by decide)
      rw [htw, if_neg (natToHexUpper_ne_nil n0), List.drop_left]
      simp only
      rw [natToHexUpper_hexVal, if_neg (by omega)]
      have hbodylen : ¬ ((piece ++ 13 :: 10 :: tailEnc).length < n0) := by
        simp only [List.length_append, List.length_cons, hn0]
        omega
      rw [if_neg hbodylen]
      have hdropn : (piece ++ 13 :: 10 :: tailEnc).drop n0 = 13 :: 10 :: tailEnc := by
        rw [hn0, List.drop_left]
      rw [hdropn]
      have htaken : (piece ++ 13 :: 10 :: tailEnc).take n0 = piece := by
        rw [hn0, List.take_left]
      rw [htaken, htail]
      have hdlen : ((b :: rest).drop c).length < f := by
        simp only [List.length_drop, List.length_cons]
        simp only [List.length_cons] at hlen
        omega
      change Option.map (fun x => piece ++ x)
        (chunkedDecodeGo f (chunkedEncode c ((b :: rest).drop c))) = some (b :: rest)
      rw [ih _ hdlen]
      show some (piece ++ (b :: rest).drop c) = some (b :: rest)
      rw [hpiece, List.take_append_drop]

/-- C7: with any chunk size `c ≥ 1` and a downstream buffer of at least
`2c+4` bytes, (i) reading the encoder to exhaustion emits exactly the
concatenation, over the input split into `c`-sized pieces, of
`<uppercase hex length>\r\n<piece>\r\n`; (ii) the drained encoder state has
an exhausted upstream, and (iii) every read in such a state returns 0 and
stays in such a state; (iv) decoding the emitted framing reproduces the
input. -/
theorem chunked_encoder_roundtrip (c bufLen : Nat) (hc : 1 ≤ c) (hb : 2 * c + 4 ≤ bufLen)
    (input : List Nat) :
    (chunkedRun c bufLen (input.length + 1) ⟨input, [], 0⟩).1 = chunkedEncode c input ∧
    ((chunkedRun c bufLen (input.length + 1) ⟨input, [], 0⟩).2.input = [] ∧
      (chunkedRun c bufLen (input.length + 1) ⟨input, [], 0⟩).2.chunk.length ≤
        (chunkedRun c bufLen (input.length + 1) ⟨input, [], 0⟩).2.offset) ∧
    (∀ st : ChunkedState, st.input = [] → st.chunk.length ≤ st.offset →
      (chunked_read c bufLen st).1 = 0 ∧ (chunked_read c bufLen st).2.2.input = [] ∧
      (chunked_read c bufLen st).2.2.chunk.length ≤ (chunked_read c bufLen st).2.2.offset) ∧
    chunkedDecode (chunkedEncode c input) = some input := by
  have hrun := chunkedRun_spec c bufLen hc hb (input.length + 1) ⟨input, [], 0⟩
    (by simp) (by simp)
  refine ⟨hrun.1, ⟨hrun.2.1, hrun.2.2⟩,
    fun st h1 h2 => chunked_read_after_end c bufLen st h1 h2, ?_⟩
  cases input with
  | nil =>
    have he : chunkedEncode c [] = [] := by rw [chunkedEncode]; simp
    rw [he]
    exact chunkedDecodeGo_nil 0
  | cons b rest =>
    exact chunkedDecodeGo_encode c hc _ _ (chunkedEncode_len_gt c hc b rest)

/-- Witness for `chunked_encoder_roundtrip`: chunk size 4, buffer 12, input
`hello world`. -/
theorem chunked_encoder_roundtrip_w :
    (chunkedRun 4 12 ((strBytes "hello world").length + 1)
        ⟨strBytes "hello world", [], 0⟩).1 = chunkedEncode 4 (strBytes "hello world") ∧
    chunkedDecode (chunkedEncode 4 (strBytes "hello world"))
      = some (strBytes "hello world") := by
  have h := chunked_encoder_roundtrip 4 12 (by decide) (by decide) (strBytes "hello world")
  exact ⟨h.1, h.2.2.2⟩

/-! ## Header-line parsing (`crates/http/src/request/parse.rs` lines 41-51
and `crates/http/src/response/parse.rs` lines 27-37)

Both loops read a line, `trim` it, stop on an empty result, and otherwise
do `l.split(':')`, store `splt.next()` as the name and
`splt.next().trim()` as the value — so the value is only the segment
between the first and the second `:`, not everything after the first. -/

/-- One iteration of the header loop on a non-blank line: the stored
`(name, value)` pair, or `none` for the blank line that ends the headers. -/
def parseHeaderLine (line : List Nat) : Option (List Nat × List Nat) :=
  let l := trimBytes line
  if l = [] then none
  else
    let splt := splitByte byteColon l
    some (splt.headD [], trimBytes ((splt.get? 1).getD []))

theorem splitByte_headD (c : Nat) (l : List Nat) :
    (splitByte c l).headD [] = l.takeWhile (fun b => b != c) := by
  induction l with
  | nil => rfl
  | cons b rest ih =>
    simp only [splitByte, List.takeWhile]
    by_cases hb : b = c
    · subst hb
      simp
    · rw [if_neg hb]
      have hne : (b != c) = true := by simp [hb]
      rw [hne]
      simp only
      cases hs : splitByte c rest with
      | nil => exact absurd hs (splitByte_ne_nil c rest)
      | cons p ps =>
        simp only [List.headD_cons]
        rw [hs] at ih
        simp only [List.headD_cons] at ih
        rw [ih]

theorem splitByte_second (c : Nat) (l : List Nat) :
    ((splitByte c l).get? 1).getD []
      = ((l.dropWhile (fun b => b != c)).tail).takeWhile (fun b => b != c) := by
  induction l with
  | nil => rfl
  | cons b rest ih =>
    by_cases hb : b = c
    · subst hb
      simp only [splitByte, if_pos rfl, List.get?_cons_succ, List.get?_cons_zero,
        List.dropWhile]
      rw [show (b != b) = false by simp]
      simp only [List.tail_cons]
      cases hs : splitByte b rest with
      | nil => exact absurd hs (splitByte_ne_nil b rest)
      | cons p ps =>
        have h1 := splitByte_headD b rest
        rw [hs] at h1
        simp only [List.headD_cons] at h1
        simp [h1]
    · simp only [splitByte, if_neg hb]
      have hne : (b != c) = true := by simp [hb]
      cases hs : splitByte c rest with
      | nil => exact absurd hs (splitByte_ne_nil c rest)
      | cons p ps =>
        simp only [List.get?_cons_succ, List.get?_cons_zero, List.dropWhile, hne]
        rw [hs] at ih
        simp only [List.get?_cons_succ] at ih
        exact ih

/-- C5 (amended): on every line whose trimmed form is non-empty, the stored
name is the trimmed line's segment before the first `:` and the stored
value is the trimmed segment *between the first and second* `:` (the rest
of the line after a second `:` is dropped). -/
theorem header_line_parse (line : List Nat) (h : trimBytes line ≠ []) :
    parseHeaderLine line = some
      ((trimBytes line).takeWhile (fun b => b != byteColon),
        trimBytes ((((trimBytes line).dropWhile (fun b => b != byteColon)).tail).takeWhile
          (fun b => b != byteColon))) := by
  rw [parseHeaderLine]
  simp only [if_neg h]
  rw [splitByte_headD, splitByte_second]

/-- C5 counterexample: on the line `Host: localhost:8080` the stored value
is `localhost`, not `localhost:8080` as the claim states. -/
theorem header_line_second_colon_truncates :
    parseHeaderLine (strBytes "Host: localhost:8080" ++ crlf)
      = some (strBytes "Host", strBytes "localhost") ∧
    strBytes "localhost" ≠ strBytes "localhost:8080" := by
  constructor
  · rfl
  · decide

/-- Witness for `header_line_parse` at the line `A: b` followed by CRLF. -/
theorem header_line_parse_w :
    trimBytes (strBytes "A: b" ++ crlf) ≠ [] ∧
    parseHeaderLine (strBytes "A: b" ++ crlf) = some
      ((trimBytes (strBytes "A: b" ++ crlf)).takeWhile (fun b => b != byteColon),
        trimBytes ((((trimBytes (strBytes "A: b" ++ crlf)).dropWhile
          (fun b => b != byteColon)).tail).takeWhile (fun b => b != byteColon))) :=
  ⟨by decide, header_line_parse (strBytes "A: b" ++ crlf) (by decide)⟩

/-! ## Routing engine (`crates/server/src/handler/mod.rs`)

`HandlerMethodAssoc` holds, per method, a `HashMap` of literal urls (here
an association list looked up with `List.lookup`), a `Vec` of compiled
regexes with their handlers (a regex held abstract as its `test` function
`List Nat → Bool`), and an optional default. `get_handler` looks the method
up, then tries `exact.get(url)`, or else the first regex in insertion order
whose `test` accepts the url, or else the default. `handle` runs the found
handler; when there is none it calls `req.forbidden()`, which sets status
403 and responds with the error page. -/

structure HandlerMethodAssoc (H : Type) where
  exact : List (List Nat × H)
  regex : List ((List Nat → Bool) × H)
  dflt : Option H

/-- `Handler::get_handler`. -/
def get_handler {H : Type} (handlers : List (HttpMethod × HandlerMethodAssoc H))
    (m : HttpMethod) (url : List Nat) : Option H :=
  match handlers.lookup m with
  | none => none
  | some assoc =>
    match assoc.exact.lookup url with
    | some h => some h
    | none =>
      match assoc.regex.find? (fun p => p.1 url) with
      | some p => some p.2
      | none => assoc.dflt

/-- The dispatch outcome of `Handler::handle`: either some handler runs, or
no handler was found and `req.forbidden()` answers with status 403. -/
inductive RouteOutcome (H : Type) where
  | ran (h : H)
  | forbidden403
deriving DecidableEq

/-- The handler-selection part of `Handler::handle` (the pre- and
post-interceptors wrap this, and a failing handler is coerced to
`server_error`, neither of which changes which handler is selected). -/
def handle_route {H : Type} (handlers : List (HttpMethod × HandlerMethodAssoc H))
    (m : HttpMethod) (url : List Nat) : RouteOutcome H :=
  match get_handler handlers m url with
  | some h => .ran h
  | none => .forbidden403

theorem find?_first {α : Type} (p : α → Bool) (pre : List α) (x : α) (post : List α)
    (hpre : ∀ q ∈ pre, p q = false) (hx : p x = true) :
    (pre ++ x :: post).find? p = some x := by
  induction pre with
  | nil => simp [List.find?, hx]
  | cons a rest ih =>
    simp only [List.cons_append, List.find?]
    rw [hpre a (by simp)]
    exact ih fun q hq => hpre q (by simp [hq])

theorem find?_none {α : Type} (p : α → Bool) (l : List α)
    (h : ∀ q ∈ l, p q = false) : l.find? p = none := by
  induction l with
  | nil => rfl
  | cons a rest ih =>
    simp only [List.find?]
    rw [h a (by simp)]
    exact ih fun q hq => h q (by simp [hq])

/-- C2: handler selection tries the exact literal map first, then the regex
matchers in insertion order taking the first whose test accepts the url,
then the method's default; a method with no registry entry yields no
handler; and `handle` answers 403 Forbidden exactly when no handler was
found, otherwise it runs the found handler. -/
theorem router_dispatch_order {H : Type}
    (handlers : List (HttpMethod × HandlerMethodAssoc H))
    (m : HttpMethod) (url : List Nat) :
    (∀ assoc, handlers.lookup m = some assoc →
      (∀ h, assoc.exact.lookup url = some h → get_handler handlers m url = some h) ∧
      (assoc.exact.lookup url = none →
        ∀ pre r hh post, assoc.regex = pre ++ (r, hh) :: post →
          (∀ q ∈ pre, q.1 url = false) → r url = true →
          get_handler handlers m url = some hh) ∧
      (assoc.exact.lookup url = none → (∀ q ∈ assoc.regex, q.1 url = false) →
        get_handler handlers m url = assoc.dflt)) ∧
    (handlers.lookup m = none → get_handler handlers m url = none) ∧
    (get_handler handlers m url = none → handle_route handlers m url = .forbidden403) ∧
    (∀ h, get_handler handlers m url = some h → handle_route handlers m url = .ran h) := by
  have hentry : ∀ assoc, handlers.lookup m = some assoc →
      get_handler handlers m url
        = (match assoc.exact.lookup url with
           | some h => some h
           | none =>
             match assoc.regex.find? (fun p => p.1 url) with
             | some p => some p.2
             | none => assoc.dflt) := by
    intro assoc hm
    rw [get_handler, hm]
  refine ⟨?_, ?_, ?_, ?_⟩
  · intro assoc hm
    refine ⟨?_, ?_, ?_⟩
    · intro h hex
      rw [hentry assoc hm, hex]
    · intro hex pre r hh post hreg hpre hr
      rw [hentry assoc hm, hex, hreg,
        find?_first (fun p => p.1 url) pre (r, hh) post hpre hr]
    · intro hex hall
      rw [hentry assoc hm, hex, find?_none _ _ hall]
  · intro hm
    rw [get_handler, hm]
  · intro hnone
    rw [handle_route, hnone]
  · intro h hsome
    rw [handle_route, hsome]

/-- Witness for `router_dispatch_order`: a registry with one literal route,
two regex routes and a default; the url `/a` misses the literal and is
taken by the first matching regex. -/
theorem router_dispatch_order_w :
    get_handler [(HttpMethod.GET,
        (⟨[([47], 1)], [((fun u => u == [47, 97]), 2), ((fun _ => true), 3)], some 4⟩ :
          HandlerMethodAssoc Nat))] .GET [47, 97] = some 2 := by
  have h := (router_dispatch_order
      [(HttpMethod.GET,
        (⟨[([47], 1)], [((fun u => u == [47, 97]), 2), ((fun _ => true), 3)], some 4⟩ :
          HandlerMethodAssoc Nat))] .GET [47, 97]).1
      ⟨[([47], 1)], [((fun u => u == [47, 97]), 2), ((fun _ => true), 3)], some 4⟩ rfl
  exact h.2.1 rfl [] (fun u => u == [47, 97]) 2 [((fun _ => true), 3)] rfl
    (by simp) (by decide)

/-! ## Status codes and the range request pipeline
(`crates/http/src/status.rs`, `crates/http/src/request/mod.rs`,
`crates/server/src/handler/mod.rs`)

`head_headers` (for a readable regular file, embedded as its byte list;
the directory and open-failure branches do not apply under the claim's
premise, and the MIME lookup only stages a `Content-Type` the claim does
not mention) sets `Content-Length` to the file length, and when a `Range`
header is present runs `get_range_for` (`?` propagates its error). With
`start..end`: `end > len || end <= start` sets status 416, otherwise 206
with `Content-Length: end-start` and
`Content-Range: bytes <start>-<end-1>/<len>`. `cat_handler` then answers
the error page when the status is an HTTP error (416 is), else seeks to
`start` and streams `end-start` bytes. A handler error is coerced by
`Handler::handle` into `req.server_error()`: status 500 with the error
page. -/

def is_http_ok (s : Nat) : Bool := 200 ≤ s && s < 300

def is_http_err (s : Nat) : Bool := !is_http_ok s

/-- `status_msg` (the fixed table of `status.rs`; unknown codes map to
`?`). -/
def status_msg (n : Nat) : List Nat :=
  if n = 200 then strBytes "OK"
  else if n = 201 then strBytes "CREATED"
  else if n = 202 then strBytes "ACCEPTED"
  else if n = 203 then strBytes "NON-AUTHORITATIVE INFORMATION"
  else if n = 204 then strBytes "NO CONTENT"
  else if n = 205 then strBytes "RESET CONTENT"
  else if n = 206 then strBytes "PARTIAL CONTENT"
  else if n = 300 then strBytes "MULTIPLE CHOICES"
  else if n = 301 then strBytes "MOVED PERMANENTLY"
  else if n = 302 then strBytes "FOUND"
  else if n = 303 then strBytes "SEE OTHER"
  else if n = 304 then strBytes "NOT MODIFIED"
  else if n = 307 then strBytes "TEMPORARY REDIRECT"
  else if n = 308 then strBytes "PERMANENT REDIRECT"
  else if n = 400 then strBytes "BAD REQUEST"
  else if n = 401 then strBytes "UNAUTHORIZED"
  else if n = 403 then strBytes "FORBIDDEN"
  else if n = 404 then strBytes "NOT FOUND"
  else if n = 405 then strBytes "METHOD NOT ALLOWED"
  else if n = 406 then strBytes "NOT ACCEPTABLE"
  else if n = 407 then strBytes "PROXY AUTHENTICATION REQUIRED"
  else if n = 408 then strBytes "REQUEST TIMEOUT"
  else if n = 409 then strBytes "CONFLICT"
  else if n = 410 then strBytes "GONE"
  else if n = 411 then strBytes "LENGTH REQUIRED"
  else if n = 412 then strBytes "PRECONDITION FAILED"
  else if n = 413 then strBytes "PAYLOAD TOO LARGE"
  else if n = 414 then strBytes "URI TOO LONG"
  else if n = 415 then strBytes "UNSUPPORTED MEDIA TYPE"
  else if n = 416 then strBytes "REQUESTED RANGE NOT SATISFIABLE"
  else if n = 429 then strBytes "TOO MANY REQUESTS"
  else if n = 501 then strBytes "NOT IMPLEMENTED"
  else if n = 500 then strBytes "INTERNAL SERVER ERROR"
  else strBytes "?"

/-- `HttpRequest::error_page`: the fixed HTML document with the code and
its phrase interpolated twice. -/
def error_page (status : Nat) : List Nat :=
  strBytes "<!DOCTYPE html>\n<html lang=\"en\">\n    <head>\n        <meta charset=\"utf-8\">\n        <title>" ++
    natToDec status ++ [byteSpace] ++ status_msg status ++
    strBytes "</title>\n    </head>\n<body>\n    <h1>" ++
    natToDec status ++ [byteSpace] ++ status_msg status ++
    strBytes "</h1>\n</body>\n</html>"

/-- The response-relevant outcome of `cat_handler` on one request: the
final status, the `Content-Length` and `Content-Range` response headers
(values as byte strings), and the bytes streamed as the body. -/
structure CatResponse where
  status : Nat
  contentLength : Option (List Nat)
  contentRange : Option (List Nat)
  body : List Nat
deriving DecidableEq

/-- The staged state after `head_headers`: status, the two headers, and
the returned optional range. -/
structure HeadState where
  status : Nat
  contentLength : Option (List Nat)
  contentRange : Option (List Nat)
deriving DecidableEq

/-- `head_headers` on a readable regular file `file` with an optional
`Range` header value. -/
def head_headers (file : List Nat) (rangeHdr : Option (List Nat)) :
    Except (List Nat) (HeadState × Option (Nat × Nat)) :=
  let len := file.length
  let st0 : HeadState := ⟨200, some (natToDec len), none⟩
  match rangeHdr with
  | none => .ok (st0, none)
  | some hdr =>
    match get_range_for hdr len with
    | .error e => .error e
    | .ok (s, e) =>
      if e > len ∨ e ≤ s then
        .ok ({ st0 with status := 416 }, some (s, e))
      else
        .ok ({ st0 with
                status := 206,
                contentLength := some (natToDec (e - s)),
                contentRange := some (strBytes "bytes " ++ natToDec s ++ [byteDash] ++
                  natToDec (e - 1) ++ [47] ++ natToDec len) },
              some (s, e))

/-- `cat_handler` on a readable regular file: error page when
`req.is_http_err()` (with `respond_buf` overwriting `Content-Length` with
the page length), else the seek-and-take range body or the whole file. -/
def cat_handler (file : List Nat) (rangeHdr : Option (List Nat)) :
    Except (List Nat) CatResponse :=
  match head_headers file rangeHdr with
  | .error e => .error e
  | .ok (st, range) =>
    if is_http_err st.status then
      .ok ⟨st.status, some (natToDec (error_page st.status).length), st.contentRange,
        error_page st.status⟩
    else
      match range with
      | some (s, e) => .ok ⟨st.status, st.contentLength, st.contentRange,
          (file.drop s).take (e - s)⟩
      | none => .ok ⟨st.status, st.contentLength, st.contentRange, file⟩

/-- `Handler::handle` around `cat_handler`: a handler error is logged and
answered by `req.server_error()` — status 500 with the error page. -/
def handle_cat (file : List Nat) (rangeHdr : Option (List Nat)) : CatResponse :=
  match cat_handler file rangeHdr with
  | .ok r => r
  | .error _ => ⟨500, some (natToDec (error_page 500).length), none, error_page 500⟩

/-- C1 counterexample: on a 10-byte file with `Range: chars=0-5`, the unit
is not `bytes`; the claim demands status 416, but `get_range_for` errors,
the handler propagates the error, and the router answers 500. -/
theorem range_unit_mismatch_gives_500 :
    (handle_cat (strBytes "0123456789") (some (strBytes "chars=0-5"))).status = 500 ∧
    (500 : Nat) ≠ 416 := ⟨rfl, by decide⟩

/-- C1 (amended): on a readable file, a `Range` header on which
`get_range_for` errors — in particular whenever the unit is not exactly
`bytes` — makes the handler fail and the router respond 500 (not 416);
when it yields `start..end`, the response is 416 when `end > len` or
`end ≤ start`, and otherwise 206 with `Content-Length: end-start`,
`Content-Range: bytes <start>-<end-1>/<len>`, and exactly the bytes
`[start, end)` of the file as the body. -/
theorem range_request_handling (file : List Nat) (hdr : List Nat) :
    ((∃ msg, get_range_for hdr file.length = .error msg) →
      (handle_cat file (some hdr)).status = 500) ∧
    (rangeUnit hdr ≠ strBytes "bytes" →
      ∃ msg, get_range_for hdr file.length = .error msg) ∧
    (∀ s e, get_range_for hdr file.length = .ok (s, e) →
      if e > file.length ∨ e ≤ s then
        (handle_cat file (some hdr)).status = 416
      else
        (handle_cat file (some hdr)).status = 206 ∧
        (handle_cat file (some hdr)).contentLength = some (natToDec (e - s)) ∧
        (handle_cat file (some hdr)).contentRange
          = some (strBytes "bytes " ++ natToDec s ++ [byteDash] ++
              natToDec (e - 1) ++ [47] ++ natToDec file.length) ∧
        (handle_cat file (some hdr)).body = (file.drop s).take (e - s)) := by
  refine ⟨?_, ?_, ?_⟩
  · rintro ⟨msg, hmsg⟩
    have h1 : cat_handler file (some hdr) = .error msg := by
      simp only [cat_handler, head_headers, hmsg]
    simp only [handle_cat, h1]
  · intro hunit
    rw [rangeUnit] at hunit
    refine ⟨strBytes "Unknown unit", ?_⟩
    simp only [get_range_for]
    rw [if_pos hunit]
  · intro s e hok
    by_cases hcase : e > file.length ∨ e ≤ s
    · rw [if_pos hcase]
      have h1 : head_headers file (some hdr)
          = .ok (⟨416, some (natToDec file.length), none⟩, some (s, e)) := by
        simp only [head_headers, hok]
        rw [if_pos hcase]
      simp only [handle_cat, cat_handler, h1]
      norm_num [is_http_err, is_http_ok]
    · rw [if_neg hcase]
      have h1 : head_headers file (some hdr)
          = .ok (⟨206, some (natToDec (e - s)),
              some (strBytes "bytes " ++ natToDec s ++ [byteDash] ++
                natToDec (e - 1) ++ [47] ++ natToDec file.length)⟩, some (s, e)) := by
        simp only [head_headers, hok]
        rw [if_neg hcase]
      simp only [handle_cat, cat_handler, h1]
      norm_num [is_http_err, is_http_ok]

/-- Witness for `range_request_handling`: `Range: bytes=2-5` on the 10-byte
file `0123456789` gives 206 and the bytes `[2, 5)`. -/
theorem range_request_handling_w :
    get_range_for (strBytes "bytes=2-5") (strBytes "0123456789").length = .ok (2, 5) ∧
    (handle_cat (strBytes "0123456789") (some (strBytes "bytes=2-5"))).status = 206 ∧
    (handle_cat (strBytes "0123456789") (some (strBytes "bytes=2-5"))).body
      = ((strBytes "0123456789").drop 2).take 3 := by
  have h := (range_request_handling (strBytes "0123456789") (strBytes "bytes=2-5")).2.2
    2 5 rfl
  rw [if_neg (by decide)] at h
  exact ⟨rfl, h.1, h.2.2.2⟩

/-! ## Basic authentication wrapper (`crates/server/src/handler/auth.rs`)

`AuthedRequest::handle`: with no `Authorization` header, stage
`WWW-Authenticate: Basic` and `req.unauthorized()` (status 401 with the
error page). Otherwise `HttpAuth::parse` splits the header on whitespace
into scheme and payload (missing pieces error), `Basic` goes to
`parse_basic` — Base64-decode (the in-repo decoder), UTF-8 check,
`splitn(2, ':')`, percent-decode both sides — and any parse error
propagates out of the handler (`?`), which the router then coerces to 500;
on success `HttpAuth::check` admits the user when the required-users list
is empty or contains the user, and the stored password equals the given
one; a failed check answers `req.unauthorized()` (401). -/

/-- `parse_basic`. -/
def parse_basic (payload : List Nat) : Except (List Nat) (List Nat × List Nat) :=
  match B64.decode payload with
  | .error e => .error e
  | .ok decoded =>
    if validUtf8 decoded then
      let (user, rest) := splitn2 byteColon decoded
      let passwd := rest.getD []
      match Url.decode user with
      | .error e => .error e
      | .ok u =>
        match Url.decode passwd with
        | .error e => .error e
        | .ok p => .ok (u, p)
    else .error (strBytes "invalid utf-8")

/-- `HttpAuth::parse` (the `Basic` variant carries user and password). -/
def HttpAuth.parse (header : List Nat) : Except (List Nat) (List Nat × List Nat) :=
  match splitWs header with
  | [] => .error (strBytes "Malfromatted Authentication header")
  | [_] => .error (strBytes "Malfromatted Authentication header")
  | t :: payload :: _ =>
    if t = strBytes "Basic" then parse_basic payload
    else .error (strBytes "Unknown authentication method " ++ t)

/-- `HttpAuth::check`. -/
def HttpAuth.check (user pass : List Nat) (required : List (List Nat))
    (users : List (List Nat × List Nat)) : Bool :=
  if required.isEmpty || required.contains user then
    match users.lookup user with
    | some p => p == pass
    | none => false
  else false

/-- The observable outcome of the auth-wrapped handler: `challenge` is
`WWW-Authenticate: Basic` staged plus `unauthorized()` (401), `denied` is
`unauthorized()` (401), `invoked` means the wrapped handler ran, and
`failed` is an error returned from the handler (coerced to 500 by the
router). -/
inductive AuthOutcome where
  | challenge
  | denied
  | invoked
  | failed (msg : List Nat)
deriving DecidableEq

/-- `AuthedRequest::handle`. -/
def AuthedRequest.handle (required : List (List Nat)) (users : List (List Nat × List Nat))
    (authHeader : Option (List Nat)) : AuthOutcome :=
  match authHeader with
  | none => .challenge
  | some h =>
    match HttpAuth.parse h with
    | .error e => .failed e
    | .ok (user, pass) =>
      if HttpAuth.check user pass required users then .invoked else .denied

theorem dropWhile_all {p : Nat → Bool} {l : List Nat} (h : ∀ b ∈ l, p b = true) :
    l.dropWhile p = [] := by
  induction l with
  | nil => rfl
  | cons b rest ih =>
    simp only [List.dropWhile, h b (by simp)]
    exact ih fun x hx => h x (by simp [hx])

theorem dropWhile_append_stop {p : Nat → Bool} {l1 : List Nat} {x : Nat} (l2 : List Nat)
    (h1 : ∀ b ∈ l1, p b = true) (hx : p x = false) :
    (l1 ++ x :: l2).dropWhile p = x :: l2 := by
  induction l1 with
  | nil => simp [List.dropWhile, hx]
  | cons b rest ih =>
    simp only [List.cons_append, List.dropWhile, h1 b (by simp), List.append_eq]
    exact ih fun y hy => h1 y (by simp [hy])

theorem splitWs_single {l : List Nat} (hne : l ≠ [])
    (h : ∀ b ∈ l, isWsByte b = false) : splitWs l = [l] := by
  cases l with
  | nil => exact absurd rfl hne
  | cons b rest =>
    rw [splitWs]
    rw [if_neg (by simp [h b (by simp)])]
    have h1 : rest.takeWhile (fun x => !isWsByte x) = rest :=
      takeWhile_all fun x hx => by simp [h x (by simp [hx])]
    have h2 : rest.dropWhile (fun x => !isWsByte x) = [] :=
      dropWhile_all fun x hx => by simp [h x (by simp [hx])]
    rw [h1, h2]
    simp [splitWs]

theorem splitWs_word_space {w : List Nat} (rest : List Nat) (hne : w ≠ [])
    (h : ∀ b ∈ w, isWsByte b = false) :
    splitWs (w ++ byteSpace :: rest) = w :: splitWs rest := by
  cases w with
  | nil => exact absurd rfl hne
  | cons b w2 =>
    rw [List.cons_append, splitWs]
    rw [if_neg (by simp [h b (by simp)])]
    have h1 : (w2 ++ byteSpace :: rest).takeWhile (fun x => !isWsByte x) = w2 :=
      takeWhile_append_stop rest (fun x hx => by simp [h x (by simp [hx])]) (by simp [isWsByte, byteSpace])
    have h2 : (w2 ++ byteSpace :: rest).dropWhile (fun x => !isWsByte x) = byteSpace :: rest :=
      dropWhile_append_stop rest (fun x hx => by simp [h x (by simp [hx])]) (by simp [isWsByte, byteSpace])
    rw [h1, h2]
    rw [splitWs, if_pos (by simp [isWsByte, byteSpace])]

theorem splitn2_spec (c : Nat) (l : List Nat) :
    (splitn2 c l).1 = l.takeWhile (fun b => b != c) ∧
    ((splitn2 c l).2).getD [] = (l.dropWhile (fun b => b != c)).tail := by
  induction l with
  | nil => exact ⟨rfl, rfl⟩
  | cons b rest ih =>
    by_cases hb : b = c
    · subst hb
      simp [splitn2, List.takeWhile, List.dropWhile]
    · simp only [splitn2, if_neg hb]
      have hne : (b != c) = true := by simp [hb]
      simp only [List.takeWhile, List.dropWhile, hne]
      exact ⟨by rw [← ih.1], by rw [← ih.2]⟩

/-- C6 counterexample: `Authorization: Basic ~` is a `Basic <payload>`
header, but the payload is not Base64, so the handler returns an error
(which the router coerces to 500) — not the 401 the claim requires for
"every other Basic case". -/
theorem auth_bad_payload_errors :
    AuthedRequest.handle [] [] (some (strBytes "Basic ~"))
      = .failed (strBytes "Unknown character to decode: ~") ∧
    AuthOutcome.failed (strBytes "Unknown character to decode: ~") ≠ .denied ∧
    AuthOutcome.failed (strBytes "Unknown character to decode: ~") ≠ .challenge := by
  have hsplit : splitWs (strBytes "Basic ~") = [strBytes "Basic", strBytes "~"] := by
    have heq : strBytes "Basic ~" = strBytes "Basic" ++ byteSpace :: strBytes "~" := by
      simp [strBytes, byteSpace]
    rw [heq, splitWs_word_space _ (by decide) (by decide),
      splitWs_single (by decide) (by decide)]
  refine ⟨?_, by decide, by decide⟩
  rw [AuthedRequest.handle, HttpAuth.parse, hsplit]
  simp only [if_pos rfl]
  rfl

/-- C6 (amended): with no `Authorization` header the outcome is the 401
challenge with `WWW-Authenticate: Basic`; for `Basic <payload>` whose
payload Base64-decodes to valid UTF-8 that splits at the first `:` and
percent-decodes into `user` and `pass`, the wrapped handler is invoked
exactly when (the allow-list is empty OR contains the user) AND the stored
password for the user equals `pass`, every other such case answering plain
401; а payload on which that decoding chain fails makes the handler itself
error (the router then answers 500, not 401). -/
theorem auth_wrapped_dispatch (required : List (List Nat))
    (users : List (List Nat × List Nat)) :
    (AuthedRequest.handle required users none = .challenge) ∧
    (∀ payload decoded user pass,
      payload ≠ [] → (∀ b ∈ payload, isWsByte b = false) →
      B64.decode payload = .ok decoded →
      validUtf8 decoded = true →
      Url.decode (decoded.takeWhile (fun b => b != byteColon)) = .ok user →
      Url.decode ((decoded.dropWhile (fun b => b != byteColon)).tail) = .ok pass →
      (AuthedRequest.handle required users (some (strBytes "Basic " ++ payload))
          = .invoked ↔
        ((required = [] ∨ user ∈ required) ∧ users.lookup user = some pass)) ∧
      (AuthedRequest.handle required users (some (strBytes "Basic " ++ payload))
          ≠ .invoked →
        AuthedRequest.handle required users (some (strBytes "Basic " ++ payload))
          = .denied)) := by
  refine ⟨rfl, ?_⟩
  intro payload decoded user pass hne hnws hdec hutf hu hp
  have hsplit : splitWs (strBytes "Basic " ++ payload)
      = strBytes "Basic" :: splitWs payload := by
    have : strBytes "Basic " ++ payload = strBytes "Basic" ++ byteSpace :: payload := by
      simp [strBytes, byteSpace]
    rw [this]
    exact splitWs_word_space payload (by decide) (by decide)
  have hparse : HttpAuth.parse (strBytes "Basic " ++ payload) = parse_basic payload := by
    rw [HttpAuth.parse, hsplit, splitWs_single hne hnws]
    simp
  have hbasic : parse_basic payload = .ok (user, pass) := by
    rw [parse_basic, hdec]
    simp only [hutf, if_true]
    have hs := splitn2_spec byteColon decoded
    rcases hsp : splitn2 byteColon decoded with ⟨u0, r0⟩
    rw [hsp] at hs
    simp only at hs
    simp only
    rw [hs.1, hu]
    simp only
    rw [hs.2, hp]
  have hh : AuthedRequest.handle required users (some (strBytes "Basic " ++ payload))
      = if HttpAuth.check user pass required users then .invoked else .denied := by
    rw [AuthedRequest.handle, hparse, hbasic]
  constructor
  · rw [hh]
    constructor
    · intro hinv
      by_cases hc : HttpAuth.check user pass required users = true
      · rw [HttpAuth.check] at hc
        by_cases hmem : (required.isEmpty || required.contains user) = true
        · rw [if_pos hmem] at hc
          refine ⟨?_, ?_⟩
          · rcases Bool.or_eq_true_iff.mp hmem with h1 | h1
            · exact Or.inl (List.isEmpty_iff.mp h1)
            · exact Or.inr (by
                have := List.contains_iff_exists_mem_beq.mp h1
                obtain ⟨a, ha, hb⟩ := this
                rwa [show user = a from by simpa using hb] )
          · cases hlk : users.lookup user with
            | none => rw [hlk] at hc; exact absurd hc (by simp)
            | some p =>
              rw [hlk] at hc
              have hpp : p = pass := by simpa using hc
              rw [hpp]
        · rw [if_neg (by simpa using hmem)] at hc
          exact absurd hc (by simp)
      · rw [if_neg hc] at hinv
        exact absurd hinv (by decide)
    · rintro ⟨hmem, hlk⟩
      have hc : HttpAuth.check user pass required users = true := by
        rw [HttpAuth.check]
        have hmem2 : (required.isEmpty || required.contains user) = true := by
          rcases hmem with h1 | h1
          · simp [h1]
          · simp [List.contains_iff_exists_mem_beq]
            exact Or.inr h1
        rw [if_pos hmem2, hlk]
        simp
      rw [if_pos hc]
  · rw [hh]
    intro hninv
    by_cases hc : HttpAuth.check user pass required users = true
    · rw [if_pos hc] at hninv
      exact absurd rfl hninv
    · rw [if_neg hc]

/-- Witness for `auth_wrapped_dispatch`: the payload `dXNlcjpwdw==`
(Base64 of `user:pw`) against the user table `user → pw` invokes the
wrapped handler. -/
theorem auth_wrapped_dispatch_w :
    AuthedRequest.handle [] [(strBytes "user", strBytes "pw")]
      (some (strBytes "Basic " ++ strBytes "dXNlcjpwdw==")) = .invoked := by
  have h := ((auth_wrapped_dispatch [] [(strBytes "user", strBytes "pw")]).2
    (strBytes "dXNlcjpwdw==") (strBytes "user:pw") (strBytes "user") (strBytes "pw")
    (by decide) (by decide) rfl (by decide) rfl rfl).1
  exact h.mpr ⟨Or.inl rfl, rfl⟩

/-! ## Request serialization and parsing
(`crates/http/src/request/mod.rs` `write_to`,
`crates/http/src/request/parse.rs` `parse_request`)

`write_to` emits `<method> <url>`, then — only when params are non-empty —
`?` and `key=value&` for every pair (percent-encoded, with the trailing
`&` the implementation leaves), then ` HTTP/<version>\r\n`, then
`name: value\r\n` per header, then the raw body when present, then a final
`\r\n` (note: the body comes *before* the blank line; the crate's own
`send_to_test` asserts exactly this byte layout). `parse_request` reads the
request line, whitespace-splits it into at most three tokens, parses the
method, splits the target at `?` into path and query (query pairs split at
`&` then `=`, both sides percent-decoded, inserted with overwrite), percent-
decodes the path, strips `HTTP/` from the version token and parses it as an
`f32`, then reads header lines until a blank one. The parsed request has
status 200 and no body.

The `f32` version is embedded as a decimal pair `(major, minor)`; its
`Display` prints `major` when `minor = 0` and `major.minor` otherwise, and
its `FromStr` reads those forms back. Rust's shortest-round-trip `f32`
formatting agrees with this model on the domain used in the round-trip
theorem (`major < 1000`, `minor < 10`). -/

/-- `Display` of the version float on the decimal-pair embedding. -/
def versionToBytes (v : Nat × Nat) : List Nat :=
  if v.2 = 0 then natToDec v.1 else natToDec v.1 ++ [46] ++ natToDec v.2

/-- `str::replace("HTTP/", "")`: remove every (non-overlapping, leftmost)
occurrence. -/
def replaceHTTP : List Nat → List Nat
  | [] => []
  | b :: rest =>
    if (b :: rest).take 5 = strBytes "HTTP/" then replaceHTTP ((b :: rest).drop 5)
    else b :: replaceHTTP rest
termination_by l => l.length
decreasing_by all_goals simp_wf <;> omega

/-- `f32::from_str` on the decimal-pair embedding: `<digits>` or
`<digits>.<digits>`. -/
def parseF32Version (l : List Nat) : Option (Nat × Nat) :=
  match splitByte 46 l with
  | [a] => if a ≠ [] ∧ a.all isDigitByte then some (digitsVal a, 0) else none
  | [a, b] =>
    if a ≠ [] ∧ a.all isDigitByte ∧ b ≠ [] ∧ b.all isDigitByte then
      some (digitsVal a, digitsVal b)
    else none
  | _ => none

/-- The version part of `parse_request`:
`.replace("HTTP/", "").parse().or_else(|_| err!("Could not parse HTTP Version"))`. -/
def parseVersion (tok : List Nat) : Except (List Nat) (Nat × Nat) :=
  match parseF32Version (replaceHTTP tok) with
  | some v => .ok v
  | none => .error (strBytes "Could not parse HTTP Version")

/-- The request fields the round-trip claim compares (`HttpRequest` minus
its stream and staged response headers). -/
structure HttpRequestModel where
  method : HttpMethod
  url : List Nat
  headers : List (List Nat × List Nat)
  params : List (List Nat × List Nat)
  version : Nat × Nat
  status : Nat
  body : Option (List Nat)
deriving DecidableEq

/-- `HttpRequest::write_to`. -/
def write_to (r : HttpRequestModel) : List Nat :=
  r.method.fmt ++ [byteSpace] ++ r.url ++
    (if r.params = [] then []
     else byteQuestion ::
       r.params.foldr
         (fun kv acc => Url.encode kv.1 ++ [byteEq] ++ Url.encode kv.2 ++ [byteAmp] ++ acc)
         []) ++
    strBytes " HTTP/" ++ versionToBytes r.version ++ crlf ++
    r.headers.foldr (fun kv acc => kv.1 ++ strBytes ": " ++ kv.2 ++ crlf ++ acc) [] ++
    (r.body.getD []) ++ crlf

/-- `BufReader::read_line`: everything up to and including the first LF
(or the whole rest at EOF), plus the remaining stream. -/
def readLine : List Nat → List Nat × List Nat
  | [] => ([], [])
  | b :: rest =>
    if b = byteLF then ([b], rest)
    else
      let (ln, r) := readLine rest
      (b :: ln, r)

/-- `HashMap::insert` on an association list: overwrite any previous
binding of the key. -/
def mapInsert (k v : List Nat) (m : List (List Nat × List Nat)) :
    List (List Nat × List Nat) :=
  m.filter (fun p => p.1 != k) ++ [(k, v)]

/-- The query-string part of `parse_request`: split the target at `?`
(only the first two pieces are used), split the query at `&`, each pair at
`=` (again only the first two pieces), percent-decode both sides, insert
with overwrite. Returns the new url piece and the params. -/
def parseQuery (url0 : List Nat) :
    Except (List Nat) (List Nat × List (List Nat × List Nat)) :=
  let pieces := splitByte byteQuestion url0
  let newUrl := pieces.headD []
  let query := (pieces.get? 1).getD []
  let go : List (List Nat × List Nat) → List Nat →
      Except (List Nat) (List (List Nat × List Nat)) := fun acc arg =>
    let kv := splitByte byteEq arg
    match Url.decode (kv.headD []) with
    | .error e => .error e
    | .ok k =>
      match Url.decode ((kv.get? 1).getD []) with
      | .error e => .error e
      | .ok v => .ok (mapInsert k v acc)
  match (splitByte byteAmp query).foldlM go [] with
  | .error e => (.error e : Except (List Nat) (List Nat × List (List Nat × List Nat)))
  | .ok params => .ok (newUrl, params)

/-- The header loop of `parse_request`: read lines until one trims to
empty, feeding each through `parseHeaderLine` and inserting in order. The
fuel only bounds the number of lines (each consumes at least a byte). -/
def parseHeadersGo : Nat → List Nat → List (List Nat × List Nat) × List Nat
  | _, [] => ([], [])
  | 0, _ :: _ => ([], [])
  | fuel + 1, bs =>
    let (line, rest) := readLine bs
    match parseHeaderLine line with
    | none => ([], rest)
    | some kv =>
      let (hs, r) := parseHeadersGo fuel rest
      (kv :: hs, r)

/-- `parse_request` on a byte stream; the parsed record (status 200, no
body; the stream is left positioned after the blank line). -/
def parse_request (stream : List Nat) : Except (List Nat) HttpRequestModel :=
  let (line, rest) := readLine stream
  let toks := (splitWs line).take 3
  match HttpMethod.fromStr (toks.headD []) with
  | .error e => .error e
  | .ok method =>
    let url0 := (toks.get? 1).getD []
    match (if byteQuestion ∈ url0 then parseQuery url0 else .ok (url0, [])) with
    | .error e => .error e
    | .ok (url1, params) =>
      match Url.decode url1 with
      | .error e => .error e
      | .ok url =>
        match parseVersion ((toks.get? 2).getD []) with
        | .error e => .error e
        | .ok version =>
          let (headers, _) := parseHeadersGo rest.length rest
          .ok ⟨method, url, headers, params, version, 200, none⟩

theorem natToDecGo_spec : ∀ (n fuel : Nat), n ≤ fuel →
    digitsVal (natToDecGo fuel n) = n ∧
    (∀ b ∈ natToDecGo fuel n, 48 ≤ b ∧ b ≤ 57) ∧
    (n ≠ 0 → natToDecGo fuel n ≠ []) := by
  intro n
  induction n using Nat.strong_induction_on with
  | _ n ih =>
    match n with
    | 0 =>
      intro fuel _
      have h0 : natToDecGo fuel 0 = [] := by cases fuel <;> rfl
      simp [h0, digitsVal]
    | m + 1 =>
      intro fuel hf
      match fuel, hf with
      | f + 1, hf =>
        have hstep : natToDecGo (f + 1) (m + 1)
            = natToDecGo f ((m + 1) / 10) ++ [48 + (m + 1) % 10] := rfl
        have hdiv : (m + 1) / 10 < m + 1 := Nat.div_lt_self (Nat.succ_pos m) (by omega)
        have hih := ih ((m + 1) / 10) hdiv f (by omega)
        refine ⟨?_, ?_, ?_⟩
        · rw [hstep]
          simp only [digitsVal] at hih ⊢
          rw [List.foldl_append, hih.1]
          simp only [List.foldl_cons, List.foldl_nil]
          omega
        · rw [hstep]
          intro b hb
          rcases List.mem_append.mp hb with h1 | h2
          · exact hih.2.1 b h1
          · have := List.mem_singleton.mp h2
            have hm : (m + 1) % 10 < 10 := Nat.mod_lt _ (by omega)
            omega
        · intro _
          rw [hstep]
          simp

theorem natToDec_digits (n : Nat) : ∀ b ∈ natToDec n, 48 ≤ b ∧ b ≤ 57 := by
  by_cases h : n = 0
  · subst h; simp [natToDec]
  · rw [natToDec, if_neg h]; exact (natToDecGo_spec n n le_rfl).2.1

theorem natToDec_val (n : Nat) : digitsVal (natToDec n) = n := by
  by_cases h : n = 0
  · subst h; rfl
  · rw [natToDec, if_neg h]; exact (natToDecGo_spec n n le_rfl).1

theorem natToDec_ne_nil (n : Nat) : natToDec n ≠ [] := by
  rw [natToDec]
  split
  · simp
  · rename_i h
    exact (natToDecGo_spec n n le_rfl).2.2 h

theorem natToDec_all_digits (n : Nat) : (natToDec n).all isDigitByte = true := by
  rw [List.all_eq_true]
  intro b hb
  have := natToDec_digits n b hb
  simp [isDigitByte]
  omega

theorem readLine_append {l : List Nat} (r : List Nat) (h : byteLF ∉ l) :
    readLine (l ++ byteLF :: r) = (l ++ [byteLF], r) := by
  induction l with
  | nil => simp [readLine]
  | cons b rest ih =>
    simp only [List.mem_cons, not_or] at h
    simp only [List.cons_append, readLine, if_neg (by omega : ¬ b = byteLF),
      List.append_eq]
    rw [ih h.2]

theorem splitWs_word_crlf {w : List Nat} (hne : w ≠ [])
    (h : ∀ b ∈ w, isWsByte b = false) : splitWs (w ++ crlf) = [w] := by
  cases w with
  | nil => exact absurd rfl hne
  | cons b w2 =>
    rw [crlf, List.cons_append, splitWs]
    rw [if_neg (by simp [h b (by simp)])]
    have h1 : (w2 ++ [byteCR, byteLF]).takeWhile (fun x => !isWsByte x) = w2 := by
      have : w2 ++ [byteCR, byteLF] = w2 ++ byteCR :: [byteLF] := rfl
      rw [this]
      exact takeWhile_append_stop _ (fun x hx => by simp [h x (by simp [hx])])
        (by simp [isWsByte, byteCR])
    have h2 : (w2 ++ [byteCR, byteLF]).dropWhile (fun x => !isWsByte x)
        = byteCR :: [byteLF] := by
      exact dropWhile_append_stop _ (fun x hx => by simp [h x (by simp [hx])])
        (by simp [isWsByte, byteCR])
    rw [h1, h2]
    rw [splitWs, if_pos (by simp [isWsByte, byteCR])]
    rw [splitWs, if_pos (by simp [isWsByte, byteLF])]
    simp [splitWs]

theorem replaceHTTP_no_H {l : List Nat} (h : 72 ∉ l) : replaceHTTP l = l := by
  induction l with
  | nil => simp [replaceHTTP]
  | cons b rest ih =>
    simp only [List.mem_cons, not_or] at h
    rw [replaceHTTP, if_neg, ih h.2]
    intro hc
    rw [show (b :: rest).take 5 = b :: rest.take 4 from rfl,
      show strBytes "HTTP/" = [72, 84, 84, 80, 47] from rfl] at hc
    injection hc with h1 _
    exact h.1 h1.symm

theorem replaceHTTP_strip (rest : List Nat) :
    replaceHTTP (strBytes "HTTP/" ++ rest) = replaceHTTP rest := by
  rw [show strBytes "HTTP/" ++ rest = 72 :: (84 :: 84 :: 80 :: 47 :: rest) from rfl,
    replaceHTTP,
    if_pos (show List.take 5 (72 :: 84 :: 84 :: 80 :: 47 :: rest) = strBytes "HTTP/"
      from rfl)]
  show replaceHTTP rest = replaceHTTP rest
  rfl

theorem versionToBytes_digits (v : Nat × Nat) :
    ∀ b ∈ versionToBytes v, (48 ≤ b ∧ b ≤ 57) ∨ b = 46 := by
  intro b hb
  rw [versionToBytes] at hb
  split at hb
  · exact Or.inl (natToDec_digits _ b hb)
  · rcases List.mem_append.mp hb with h1 | h1
    · rcases List.mem_append.mp h1 with h2 | h2
      · exact Or.inl (natToDec_digits _ b h2)
      · exact Or.inr (List.mem_singleton.mp h2)
    · exact Or.inl (natToDec_digits _ b h1)

/-- The decimal-pair version `Display` then `FromStr` round-trips. -/
theorem parseVersion_roundtrip (a b : Nat) :
    parseVersion (strBytes "HTTP/" ++ versionToBytes (a, b)) = .ok (a, b) := by
  have hnoH : (72 : Nat) ∉ versionToBytes (a, b) := by
    intro hc
    rcases versionToBytes_digits (a, b) 72 hc with h | h <;> omega
  have hnadot : (46 : Nat) ∉ natToDec a := by
    intro hc
    have := natToDec_digits a 46 hc
    omega
  have hnbdot : (46 : Nat) ∉ natToDec b := by
    intro hc
    have := natToDec_digits b 46 hc
    omega
  rw [parseVersion, replaceHTTP_strip, replaceHTTP_no_H hnoH]
  by_cases hb : b = 0
  · subst hb
    rw [show versionToBytes (a, 0) = natToDec a from by simp [versionToBytes]]
    have h1 : splitByte 46 (natToDec a) = [natToDec a] := splitByte_not_mem hnadot
    simp only [parseF32Version, h1]
    rw [if_pos (And.intro (natToDec_ne_nil a) (natToDec_all_digits a)), natToDec_val]
  · rw [show versionToBytes (a, b) = natToDec a ++ [46] ++ natToDec b from by
      simp [versionToBytes, hb]]
    have hsplit : splitByte 46 (natToDec a ++ [46] ++ natToDec b)
        = [natToDec a, natToDec b] := by
      rw [List.append_assoc, List.singleton_append,
        splitByte_append _ hnadot, splitByte_not_mem hnbdot]
    simp only [parseF32Version, hsplit]
    rw [if_pos (And.intro (natToDec_ne_nil a) (And.intro (natToDec_all_digits a)
      (And.intro (natToDec_ne_nil b) (natToDec_all_digits b))))]
    rw [natToDec_val, natToDec_val]

theorem dropWhile_append_all {p : Nat → Bool} {l1 : List Nat} (l2 : List Nat)
    (h : ∀ b ∈ l1, p b = true) : (l1 ++ l2).dropWhile p = l2.dropWhile p := by
  induction l1 with
  | nil => rfl
  | cons b rest ih =>
    simp only [List.cons_append, List.dropWhile, h b (by simp), List.append_eq]
    exact ih fun x hx => h x (by simp [hx])

theorem dropWhile_head_false {p : Nat → Bool} {b : Nat} (l : List Nat)
    (h : p b = false) : (b :: l).dropWhile p = b :: l := by
  simp [List.dropWhile, h]

theorem headD_irrel {l : List Nat} (hne : l ≠ []) (d1 d2 : Nat) :
    l.headD d1 = l.headD d2 := by
  cases l with
  | nil => exact absurd rfl hne
  | cons b rest => rfl

theorem getLastD_irrel {l : List Nat} (hne : l ≠ []) (d1 d2 : Nat) :
    l.getLastD d1 = l.getLastD d2 := by
  rw [List.getLastD_eq_getLast?, List.getLastD_eq_getLast?]
  cases h : l.getLast? with
  | none => exact absurd (List.getLast?_eq_none_iff.mp h) hne
  | some x => rfl

theorem headD_append_cons (k : List Nat) (x : Nat) (t : List Nat) (d : Nat) :
    (k ++ x :: t).headD d = k.headD x := by
  cases k with
  | nil => rfl
  | cons b rest => rfl

theorem getLastD_append_cons (l1 : List Nat) (x : Nat) (l2 : List Nat) (d : Nat) :
    (l1 ++ x :: l2).getLastD d = (x :: l2).getLastD d := by
  rw [List.getLastD_eq_getLast?, List.getLastD_eq_getLast?]
  rw [List.getLast?_append_cons]

/-- Trimming strips exactly the all-whitespace wrapping of a core whose
edges are not whitespace. -/
theorem trimBytes_wrap {pre l suf : List Nat}
    (hpre : ∀ b ∈ pre, isWsByte b = true) (hsuf : ∀ b ∈ suf, isWsByte b = true)
    (hne : l ≠ []) (hhead : isWsByte (l.headD 0) = false)
    (hlast : isWsByte (l.getLastD 0) = false) :
    trimBytes (pre ++ l ++ suf) = l := by
  cases l with
  | nil => exact absurd rfl hne
  | cons b bs =>
    rw [trimBytes]
    have h1 : ((pre ++ (b :: bs) ++ suf).dropWhile isWsByte) = (b :: bs) ++ suf := by
      rw [List.append_assoc, dropWhile_append_all _ hpre]
      exact dropWhile_head_false _ (by simpa using hhead)
    rw [h1]
    have h2 : (((b :: bs) ++ suf).reverse.dropWhile isWsByte) = (b :: bs).reverse := by
      rw [List.reverse_append, dropWhile_append_all _ (by
        intro x hx
        exact hsuf x (List.mem_reverse.mp hx))]
      have hrev : (b :: bs).reverse ≠ [] := by simp
      cases hr : (b :: bs).reverse with
      | nil => exact absurd hr hrev
      | cons c cs =>
        rw [dropWhile_head_false]
        have hc : c = (b :: bs).getLastD 0 := by
          have := List.head?_reverse (b :: bs)
          rw [hr] at this
          rw [List.getLastD_eq_getLast?, ← this]
          rfl
        rw [hc]
        exact hlast
    rw [h2, List.reverse_reverse]

/-- A well-formed written header line `k: v\r\n` parses back to `(k, v)`:
no `:` in either side, no whitespace at the name's left edge nor at the
value's edges (inner whitespace and other bytes are preserved as-is). -/
theorem parseHeaderLine_wf (k v : List Nat)
    (hkc : byteColon ∉ k) (hvc : byteColon ∉ v)
    (hkh : isWsByte (k.headD byteColon) = false)
    (hvh : isWsByte (v.headD byteColon) = false)
    (hvl : isWsByte (v.getLastD byteColon) = false) :
    parseHeaderLine (k ++ byteColon :: byteSpace :: (v ++ crlf)) = some (k, v) := by
  cases v with
  | nil =>
    have hform : k ++ byteColon :: byteSpace :: (([] : List Nat) ++ crlf)
        = [] ++ (k ++ [byteColon]) ++ (byteSpace :: crlf) := by simp
    have htrim : trimBytes (k ++ byteColon :: byteSpace :: (([] : List Nat) ++ crlf))
        = k ++ [byteColon] := by
      rw [hform]
      refine trimBytes_wrap (by simp) (by decide) (by simp) ?_ ?_
      · rw [show k ++ [byteColon] = k ++ byteColon :: [] from rfl, headD_append_cons]
        exact hkh
      · rw [show k ++ [byteColon] = k ++ byteColon :: [] from rfl, getLastD_append_cons]
        decide
    rw [parseHeaderLine, htrim]
    rw [if_neg (by simp)]
    rw [show k ++ [byteColon] = k ++ byteColon :: [] from rfl,
      splitByte_append _ hkc]
    simp [splitByte, trimBytes]
  | cons c v2 =>
    have hform : k ++ byteColon :: byteSpace :: ((c :: v2) ++ crlf)
        = [] ++ (k ++ byteColon :: byteSpace :: (c :: v2)) ++ crlf := by simp
    have htrim : trimBytes (k ++ byteColon :: byteSpace :: ((c :: v2) ++ crlf))
        = k ++ byteColon :: byteSpace :: (c :: v2) := by
      rw [hform]
      refine trimBytes_wrap (by simp) (by decide) (by simp) ?_ ?_
      · rw [headD_append_cons]
        exact hkh
      · rw [getLastD_append_cons]
        have h1 : (byteColon :: byteSpace :: (c :: v2)).getLastD 0
            = (c :: v2).getLastD 0 := by
          rw [show byteColon :: byteSpace :: (c :: v2)
            = [byteColon, byteSpace] ++ (c :: v2) from rfl, getLastD_append_cons]
        rw [h1, getLastD_irrel (by simp) 0 byteColon]
        exact hvl
    rw [parseHeaderLine, htrim]
    rw [if_neg (by simp)]
    rw [splitByte_append _ hkc]
    have hsp : splitByte byteColon (byteSpace :: (c :: v2)) = [byteSpace :: (c :: v2)] := by
      refine splitByte_not_mem ?_
      intro hmem
      rcases List.mem_cons.mp hmem with h | h
      · exact absurd h (by decide)
      · exact hvc h
    rw [hsp]
    have htrimv : trimBytes (byteSpace :: (c :: v2)) = c :: v2 := by
      rw [show byteSpace :: (c :: v2) = [byteSpace] ++ (c :: v2) ++ [] from by simp]
      refine trimBytes_wrap (by decide) (by simp) (by simp) ?_ ?_
      · rw [headD_irrel (by simp) 0 byteColon]
        exact hvh
      · rw [getLastD_irrel (by simp) 0 byteColon]
        exact hvl
    simp [htrimv]

/-- The header block `write_to` emits: `name: value\r\n` per header. -/
def headerLines (hs : List (List Nat × List Nat)) : List Nat :=
  hs.foldr (fun kv acc => kv.1 ++ strBytes ": " ++ kv.2 ++ crlf ++ acc) []

/-- A header pair that serialization does not mangle: no `:` on either
side, no LF, no whitespace at the name's left edge nor at the value's
edges. -/
def headerWf (kv : List Nat × List Nat) : Prop :=
  byteColon ∉ kv.1 ∧ byteColon ∉ kv.2 ∧ byteLF ∉ kv.1 ∧ byteLF ∉ kv.2 ∧
  isWsByte (kv.1.headD byteColon) = false ∧ isWsByte (kv.2.headD byteColon) = false ∧
  isWsByte (kv.2.getLastD byteColon) = false

instance (kv : List Nat × List Nat) : Decidable (headerWf kv) := by
  unfold headerWf
  infer_instance

theorem parseHeadersGo_succ (f : Nat) (bs : List Nat) (h : bs ≠ []) :
    parseHeadersGo (f + 1) bs =
      (match parseHeaderLine (readLine bs).1 with
       | none => ([], (readLine bs).2)
       | some kv =>
         ((kv :: (parseHeadersGo f (readLine bs).2).1),
           (parseHeadersGo f (readLine bs).2).2)) := by
  cases bs with
  | nil => exact absurd rfl h
  | cons b bs2 =>
    show (match parseHeaderLine (readLine (b :: bs2)).1 with
       | none => (([] : List (List Nat × List Nat)), (readLine (b :: bs2)).2)
       | some kv =>
         ((kv :: (parseHeadersGo f (readLine (b :: bs2)).2).1),
           (parseHeadersGo f (readLine (b :: bs2)).2).2)) = _
    rfl

theorem parseHeadersGo_spec : ∀ (hs : List (List Nat × List Nat)) (fuel : Nat),
    (∀ kv ∈ hs, headerWf kv) →
    (headerLines hs ++ crlf).length ≤ fuel →
    parseHeadersGo fuel (headerLines hs ++ crlf) = (hs, []) := by
  intro hs
  induction hs with
  | nil =>
    intro fuel _ hf
    cases fuel with
    | zero => simp [headerLines, crlf] at hf
    | succ f => rfl
  | cons kv hs2 ih =>
    intro fuel hwf hf
    obtain ⟨k, v⟩ := kv
    obtain ⟨hkc, hvc, hklf, hvlf, hkh, hvh, hvl⟩ := hwf (k, v) (by simp)
    have hstream : headerLines ((k, v) :: hs2) ++ crlf
        = ((k ++ byteColon :: byteSpace :: v ++ [byteCR]) ++
            byteLF :: (headerLines hs2 ++ crlf)) := by
      simp only [headerLines, List.foldr_cons, strBytes, crlf]
      simp [List.append_assoc, byteColon, byteSpace, byteCR, byteLF]
    have hlf : byteLF ∉ k ++ byteColon :: byteSpace :: v ++ [byteCR] := by
      intro hmem
      rcases List.mem_append.mp hmem with h1 | h1
      · rcases List.mem_append.mp h1 with h2 | h2
        · exact hklf h2
        · rcases List.mem_cons.mp h2 with h3 | h3
          · exact absurd h3 (by decide)
          · rcases List.mem_cons.mp h3 with h4 | h4
            · exact absurd h4 (by decide)
            · exact hvlf h4
      · exact absurd (List.mem_singleton.mp h1) (by decide)
    rw [hstream]
    cases fuel with
    | zero =>
      rw [hstream] at hf
      simp at hf
    | succ f =>
      rw [parseHeadersGo_succ f _ (by simp)]
      rw [readLine_append _ hlf]
      simp only
      have hline : (k ++ byteColon :: byteSpace :: v ++ [byteCR]) ++ [byteLF]
          = k ++ byteColon :: byteSpace :: (v ++ crlf) := by
        simp [crlf, List.append_assoc]
      rw [hline, parseHeaderLine_wf k v hkc hvc hkh hvh hvl]
      simp only
      have hrest : f ≥ (headerLines hs2 ++ crlf).length := by
        rw [hstream] at hf
        simp only [List.length_append, List.length_cons] at hf ⊢
        omega
      rw [ih f (fun kv2 h2 => hwf kv2 (by simp [h2])) hrest]

theorem parseHeadersGo_header_block (hs : List (List Nat × List Nat))
    (hhs : ∀ kv ∈ hs, headerWf kv) :
    parseHeadersGo (headerLines hs ++ crlf).length (headerLines hs ++ crlf) = (hs, []) :=
  parseHeadersGo_spec hs _ hhs le_rfl

/-- C3 (amended): write-then-parse round-trip for builder requests in the
parser's stable domain: no query params (the writer's trailing `&` makes the
parser record an extra empty pair, see the counterexample), no body (the
parser never reads one), status 200 (the parser always sets it), a
non-empty whitespace-free url without `?`, `%` or `+`, headers whose names
and values survive the header-line parser, and a version whose decimal pair
is exactly what the `f32` formats (minor < 10, major < 1000). -/
theorem write_parse_roundtrip (m : HttpMethod) (url : List Nat)
    (hs : List (List Nat × List Nat)) (a b : Nat)
    (hurlne : url ≠ []) (hurlws : ∀ x ∈ url, isWsByte x = false)
    (hurlq : byteQuestion ∉ url) (hurlpct : bytePercent ∉ url)
    (hurlplus : bytePlus ∉ url)
    (hhs : ∀ kv ∈ hs, headerWf kv)
    (hmaj : a < 1000) (hmin : b < 10) :
    parse_request (write_to ⟨m, url, hs, [], (a, b), 200, none⟩)
      = .ok ⟨m, url, hs, [], (a, b), 200, none⟩ := by
  have hfmtne : HttpMethod.fmt m ≠ [] := by cases m <;> decide
  have hfmtws : ∀ x ∈ HttpMethod.fmt m, isWsByte x = false := by cases m <;> decide
  have hhttpws : ∀ x ∈ strBytes "HTTP/", isWsByte x = false := by decide
  have hvws : ∀ x ∈ strBytes "HTTP/" ++ versionToBytes (a, b), isWsByte x = false := by
    intro x hx
    rcases List.mem_append.mp hx with h1 | h1
    · exact hhttpws x h1
    · rcases versionToBytes_digits (a, b) x h1 with h2 | h2
      · simp [isWsByte]
        omega
      · subst h2
        rfl
  have hvne : strBytes "HTTP/" ++ versionToBytes (a, b) ≠ [] := by
    intro hc
    rcases List.append_eq_nil.mp hc with ⟨h1, _⟩
    exact absurd h1 (by decide)
  have hLF : byteLF ∉ HttpMethod.fmt m ++ byteSpace :: (url ++ byteSpace ::
      (strBytes "HTTP/" ++ versionToBytes (a, b) ++ [byteCR])) := by
    intro hc
    rcases List.mem_append.mp hc with h1 | h1
    · have := hfmtws byteLF h1
      simp [isWsByte, byteLF] at this
    · rcases List.mem_cons.mp h1 with h2 | h2
      · exact absurd h2 (by decide)
      · rcases List.mem_append.mp h2 with h3 | h3
        · have := hurlws byteLF h3
          simp [isWsByte, byteLF] at this
        · rcases List.mem_cons.mp h3 with h4 | h4
          · exact absurd h4 (by decide)
          · rcases List.mem_append.mp h4 with h5 | h5
            · have := hvws byteLF h5
              simp [isWsByte, byteLF] at this
            · exact absurd (List.mem_singleton.mp h5) (by decide)
  have hsp : strBytes " HTTP/" = byteSpace :: strBytes "HTTP/" := by decide
  have hw2 : write_to ⟨m, url, hs, [], (a, b), 200, none⟩
      = (HttpMethod.fmt m ++ byteSpace :: (url ++ byteSpace ::
          (strBytes "HTTP/" ++ versionToBytes (a, b) ++ [byteCR]))) ++
        byteLF :: (headerLines hs ++ crlf) := by
    simp [write_to, headerLines, hsp, crlf, List.append_assoc]
  have hlineeq : (HttpMethod.fmt m ++ byteSpace :: (url ++ byteSpace ::
        (strBytes "HTTP/" ++ versionToBytes (a, b) ++ [byteCR]))) ++ [byteLF]
      = HttpMethod.fmt m ++ byteSpace :: (url ++ byteSpace ::
        ((strBytes "HTTP/" ++ versionToBytes (a, b)) ++ crlf)) := by
    simp [crlf, List.append_assoc]
  have hsplitline : splitWs ((HttpMethod.fmt m ++ byteSpace :: (url ++ byteSpace ::
        (strBytes "HTTP/" ++ versionToBytes (a, b) ++ [byteCR]))) ++ [byteLF])
      = [HttpMethod.fmt m, url, strBytes "HTTP/" ++ versionToBytes (a, b)] := by
    rw [hlineeq, splitWs_word_space _ hfmtne hfmtws,
      splitWs_word_space _ hurlne hurlws, splitWs_word_crlf hvne hvws]
  have hm2 : HttpMethod.fromStr
      (([HttpMethod.fmt m, url, strBytes "HTTP/" ++ versionToBytes (a, b)].take 3).headD [])
      = .ok m := by
    cases m <;> rfl
  have hq2 : byteQuestion ∉
      ((([HttpMethod.fmt m, url, strBytes "HTTP/" ++ versionToBytes (a, b)].take 3).get? 1).getD []) :=
    hurlq
  have hdec : Url.decode
      ((([HttpMethod.fmt m, url, strBytes "HTTP/" ++ versionToBytes (a, b)].take 3).get? 1).getD [])
      = .ok url := by
    show Url.decode url = .ok url
    simp only [Url.decode]
    rw [if_neg (not_or.mpr ⟨hurlpct, hurlplus⟩)]
  have hver2 : parseVersion
      ((([HttpMethod.fmt m, url, strBytes "HTTP/" ++ versionToBytes (a, b)].take 3).get? 2).getD [])
      = .ok (a, b) := by
    show parseVersion (strBytes "HTTP/" ++ versionToBytes (a, b)) = .ok (a, b)
    exact parseVersion_roundtrip a b
  have hhead := parseHeadersGo_header_block hs hhs
  simp only [parse_request]
  rw [hw2, readLine_append _ hLF]
  simp only [hsplitline, hm2, if_neg hq2, hdec, hver2, hhead]

/-- C3 counterexample: with one query param the writer emits
`GET /?a=1& HTTP/1` (trailing `&`), and re-parsing records an extra empty
param pair, so the parsed request differs from the original. -/
theorem write_parse_params_mismatch :
    parse_request (write_to
        ⟨.GET, strBytes "/", [], [(strBytes "a", strBytes "1")], (1, 0), 200, none⟩)
      = .ok ⟨.GET, strBytes "/", [],
          [(strBytes "a", strBytes "1"), ([], [])], (1, 0), 200, none⟩ ∧
    (⟨.GET, strBytes "/", [], [(strBytes "a", strBytes "1"), ([], [])],
        (1, 0), 200, none⟩ : HttpRequestModel)
      ≠ ⟨.GET, strBytes "/", [], [(strBytes "a", strBytes "1")], (1, 0), 200, none⟩ := by
  constructor
  · have hrl : readLine (write_to
        ⟨.GET, strBytes "/", [], [(strBytes "a", strBytes "1")], (1, 0), 200, none⟩)
        = (strBytes "GET /?a=1& HTTP/1" ++ crlf, crlf) := by decide
    have hsplit : splitWs (strBytes "GET /?a=1& HTTP/1" ++ crlf)
        = [strBytes "GET", strBytes "/?a=1&", strBytes "HTTP/1"] := by
      have e1 : strBytes "GET /?a=1& HTTP/1" ++ crlf
          = strBytes "GET" ++ byteSpace ::
            (strBytes "/?a=1&" ++ byteSpace :: (strBytes "HTTP/1" ++ crlf)) := by decide
      rw [e1, splitWs_word_space _ (by decide) (by decide),
        splitWs_word_space _ (by decide) (by decide),
        splitWs_word_crlf (by decide) (by decide)]
    have hver : parseVersion
        ((([strBytes "GET", strBytes "/?a=1&", strBytes "HTTP/1"].take 3).get? 2).getD [])
        = .ok (1, 0) := by
      show parseVersion (strBytes "HTTP/1") = .ok (1, 0)
      have h2 : strBytes "HTTP/1" = strBytes "HTTP/" ++ versionToBytes (1, 0) := by decide
      rw [h2]
      exact parseVersion_roundtrip 1 0
    simp only [parse_request, hrl, hsplit, hver]
    rfl
  · decide

theorem write_parse_roundtrip_w :
    (strBytes "/index.html" ≠ [] ∧
      (∀ x ∈ strBytes "/index.html", isWsByte x = false) ∧
      byteQuestion ∉ strBytes "/index.html" ∧
      bytePercent ∉ strBytes "/index.html" ∧
      bytePlus ∉ strBytes "/index.html" ∧
      (∀ kv ∈ [(strBytes "Host", strBytes "example.com")], headerWf kv) ∧
      1 < 1000 ∧ 1 < 10) ∧
    parse_request (write_to ⟨.GET, strBytes "/index.html",
        [(strBytes "Host", strBytes "example.com")], [], (1, 1), 200, none⟩)
      = .ok ⟨.GET, strBytes "/index.html",
          [(strBytes "Host", strBytes "example.com")], [], (1, 1), 200, none⟩ :=
  ⟨by decide,
    write_parse_roundtrip .GET (strBytes "/index.html")
      [(strBytes "Host", strBytes "example.com")] 1 1
      (by decide) (by decide) (by decide) (by decide) (by decide)
      (by decide) (by decide) (by decide)⟩
